import Mathlib

/-!
Shallow embedding of `src/main.py` (lensmaker): a surface-marching script that
grows a seed point into a mesh of horizontal slices of a reflective surface.

Vectors are column triples of reals; `np.linalg.norm` becomes `Real.sqrt` of the
dot square; the module-level constants become an explicit `Config` record (the
source reads them as read-only globals).  The unbounded `while` loops are
embedded with an explicit fuel parameter; "the loop terminated" is expressed as
fuel-stability of the result.  Division by zero follows Lean's total-division
convention (`x / 0 = 0`).
-/

namespace Lensmaker

/-- A 3-d vector / point, matching the `np.array([[x],[y],[z]])` columns of the source. -/
structure Vec3 where
  x : ℝ
  y : ℝ
  z : ℝ

namespace Vec3

instance : Add Vec3 := ⟨fun a b => ⟨a.x + b.x, a.y + b.y, a.z + b.z⟩⟩

instance : Sub Vec3 := ⟨fun a b => ⟨a.x - b.x, a.y - b.y, a.z - b.z⟩⟩

instance : Neg Vec3 := ⟨fun a => ⟨-a.x, -a.y, -a.z⟩⟩

instance : SMul ℝ Vec3 := ⟨fun c a => ⟨c * a.x, c * a.y, c * a.z⟩⟩

instance : Zero Vec3 := ⟨⟨0, 0, 0⟩⟩

end Vec3

/-- `np.dot(u.T, v)` for column vectors. -/
def dot (u v : Vec3) : ℝ := u.x * v.x + u.y * v.y + u.z * v.z

/-- `np.cross` of the (transposed) column vectors. -/
def cross (u v : Vec3) : Vec3 :=
  ⟨u.y * v.z - u.z * v.y, u.z * v.x - u.x * v.z, u.x * v.y - u.y * v.x⟩

/-- `np.linalg.norm`: the Euclidean length. -/
noncomputable def norm3 (v : Vec3) : ℝ := Real.sqrt (dot v v)

/-- `x_u` of the source. -/
def xU : Vec3 := ⟨1, 0, 0⟩

/-- `y_u` of the source. -/
def yU : Vec3 := ⟨0, 1, 0⟩

/-- `z_u` of the source. -/
def zU : Vec3 := ⟨0, 0, 1⟩

/-- The module-level constants of `src/main.py`, gathered into an explicit record:
fields of view in degrees, step sizes and seed distance in mm, source coordinates. -/
structure Config where
  h_fov : ℝ
  v_fov : ℝ
  h_step : ℝ
  v_step : ℝ
  init_center_dist : ℝ
  src_coord : Vec3

/-- The constant values assigned at lines 33-44 of `src/main.py`. -/
noncomputable def cfgSource : Config :=
  { h_fov := 90, v_fov := 45, h_step := 1/4, v_step := 5
    init_center_dist := 50, src_coord := ⟨50, -10, 0⟩ }

/-- The end-to-end scenario configuration of the spec (h_fov = v_fov = 90 deg,
both steps 1 mm, seed distance 50 mm, same source point). -/
noncomputable def cfgC9 : Config :=
  { h_fov := 90, v_fov := 90, h_step := 1, v_step := 1
    init_center_dist := 50, src_coord := ⟨50, -10, 0⟩ }

/-- `get_surface_normal` (lines 56-65): sum of the unit vector toward the origin
ray and the unit vector away from the source. -/
noncomputable def get_surface_normal (cfg : Config) (surface_coord : Vec3) : Vec3 :=
  (norm3 surface_coord)⁻¹ • surface_coord
    + (norm3 (surface_coord - cfg.src_coord))⁻¹ • (surface_coord - cfg.src_coord)

/-- `get_next_surface_coord_delta` (lines 67-80): cross the normal with the other
principal axis, rescale to the step length, and flip so the x (resp. z)
component is nonnegative. -/
noncomputable def get_next_surface_coord_delta (cfg : Config) (prev_surface_normal : Vec3)
    (horizontal : Bool := true) : Vec3 :=
  if horizontal then
    let orth_vec := cross prev_surface_normal zU
    let disp_vec := (cfg.h_step / norm3 orth_vec) • orth_vec
    if dot disp_vec xU < 0 then (-1 : ℝ) • disp_vec else disp_vec
  else
    let orth_vec := cross prev_surface_normal xU
    let disp_vec := (cfg.v_step / norm3 orth_vec) • orth_vec
    if dot disp_vec zU < 0 then (-1 : ℝ) • disp_vec else disp_vec

/-- `is_within_bounds` (lines 82-97): cast the point onto the plane at the seed
distance and test the ellipse inequality with tangent-derived semi-axes. -/
noncomputable def is_within_bounds (cfg : Config) (surface_coord : Vec3) : Prop :=
  (dot ((cfg.init_center_dist / dot surface_coord yU) • surface_coord) xU) ^ 2
      / (cfg.init_center_dist * Real.tan (cfg.h_fov / 2 * (Real.pi / 180))) ^ 2
    + (dot ((cfg.init_center_dist / dot surface_coord yU) • surface_coord) zU) ^ 2
      / (cfg.init_center_dist * Real.tan (cfg.v_fov / 2 * (Real.pi / 180))) ^ 2
    ≤ 1

noncomputable instance (cfg : Config) (p : Vec3) : Decidable (is_within_bounds cfg p) := by
  unfold is_within_bounds; infer_instance

/-- One marching loop of the source: `while is_within_bounds(current): current +=
dir * delta; collect current`.  `horizontal` selects which axis the tangent is
built for; `dir` is `1` for the appending loop and `-1` for the prepending loop;
the first argument of the recursion is the fuel bounding the unbounded `while`.
The returned list holds the collected points in generation order. -/
noncomputable def march (cfg : Config) (horizontal : Bool) (dir : ℝ) :
    Nat → Vec3 → List Vec3
  | 0, _ => []
  | n + 1, current =>
    if is_within_bounds cfg current then
      (current + dir • get_next_surface_coord_delta cfg
          (get_surface_normal cfg current) horizontal)
        :: march cfg horizontal dir n
          (current + dir • get_next_surface_coord_delta cfg
            (get_surface_normal cfg current) horizontal)
    else []

/-- `get_horizontal_slice` (lines 99-116): seed first, the positive loop appends,
the negative loop inserts at the front (so its points end up reversed). -/
noncomputable def get_horizontal_slice (cfg : Config) (fuel : Nat) (seed : Vec3) :
    List Vec3 :=
  (march cfg true (-1) fuel seed).reverse ++ seed :: march cfg true 1 fuel seed

/-- The module-level surface marching (lines 136-151): one slice per vertical
marching point, the upward loop appending and the downward loop prepending. -/
noncomputable def build_surface (cfg : Config) (fuel : Nat) (seed : Vec3) :
    List (List Vec3) :=
  ((march cfg false (-1) fuel seed).map (get_horizontal_slice cfg fuel)).reverse
    ++ get_horizontal_slice cfg fuel seed
    :: (march cfg false 1 fuel seed).map (get_horizontal_slice cfg fuel)

/-- The seed point `[[0],[init_center_dist],[0]]` of line 136. -/
def seedSource : Vec3 := ⟨0, 50, 0⟩

/-- The point a single marching iteration moves to from `current`. -/
noncomputable def stepPt (cfg : Config) (horizontal : Bool) (dir : ℝ) (current : Vec3) :
    Vec3 :=
  current + dir • get_next_surface_coord_delta cfg (get_surface_normal cfg current)
    horizontal

/-- The bounds predicate exactly as the spec words it: project the point onto
the reference plane with the similar-triangles scale factor
`seed_distance / (point . y)`, then test `(x_proj/r_h)^2 + (z_proj/r_v)^2 <= 1`
with the tangent-based semi-axes `r_h = seed_distance * tan(h_fov/2)` and
`r_v = seed_distance * tan(v_fov/2)`. -/
noncomputable def within_bounds_spec (cfg : Config) (p : Vec3) : Prop :=
  (((cfg.init_center_dist / dot p yU) • p).x
      / (cfg.init_center_dist * Real.tan (cfg.h_fov / 2 * (Real.pi / 180)))) ^ 2
    + (((cfg.init_center_dist / dot p yU) • p).z
      / (cfg.init_center_dist * Real.tan (cfg.v_fov / 2 * (Real.pi / 180)))) ^ 2
    ≤ 1

/-- The source configuration with the horizontal field of view forced to the
invalid value of 180 degrees. -/
noncomputable def cfg180 : Config :=
  { h_fov := 180, v_fov := 45, h_step := 1/4, v_step := 5
    init_center_dist := 50, src_coord := ⟨50, -10, 0⟩ }

/-- A configuration whose geometry is exactly computable: the source sits at
the observer (so normals are radial), both fields of view are 90 degrees, and
the steps are so large that every march leaves the bounds in one step. -/
noncomputable def cfgBig : Config :=
  { h_fov := 90, v_fov := 90, h_step := 1000, v_step := 1000
    init_center_dist := 50, src_coord := ⟨0, 0, 0⟩ }

/-- A computable-geometry configuration tuned so the rightward horizontal march
from `(0, 609, 0)` takes one in-bounds step (to a 20-21-29 Pythagorean point)
before stepping out of bounds. -/
noncomputable def cfgTwoStep : Config :=
  { h_fov := 90, v_fov := 90, h_step := 580, v_step := 580
    init_center_dist := 50, src_coord := ⟨0, 0, 0⟩ }

/-- The ellipse potential of the scenario geometry: distance to the observer
plus distance to the source.  The continuous reflector is a level set of this
function, and the marching steps are tangent to it, so it drifts only at second
order in the step size. -/
noncomputable def FC9 (p : Vec3) : ℝ := norm3 p + norm3 (p - ⟨50, -10, 0⟩)

namespace Vec3

@[ext] theorem ext3 {a b : Vec3} (hx : a.x = b.x) (hy : a.y = b.y) (hz : a.z = b.z) :
    a = b := by
  cases a; cases b; simp_all

@[simp] theorem add_x (a b : Vec3) : (a + b).x = a.x + b.x := rfl
@[simp] theorem add_y (a b : Vec3) : (a + b).y = a.y + b.y := rfl
@[simp] theorem add_z (a b : Vec3) : (a + b).z = a.z + b.z := rfl
@[simp] theorem sub_x (a b : Vec3) : (a - b).x = a.x - b.x := rfl
@[simp] theorem sub_y (a b : Vec3) : (a - b).y = a.y - b.y := rfl
@[simp] theorem sub_z (a b : Vec3) : (a - b).z = a.z - b.z := rfl
@[simp] theorem neg_x (a : Vec3) : (-a).x = -a.x := rfl
@[simp] theorem neg_y (a : Vec3) : (-a).y = -a.y := rfl
@[simp] theorem neg_z (a : Vec3) : (-a).z = -a.z := rfl
@[simp] theorem smul_x (c : ℝ) (a : Vec3) : (c • a).x = c * a.x := rfl
@[simp] theorem smul_y (c : ℝ) (a : Vec3) : (c • a).y = c * a.y := rfl
@[simp] theorem smul_z (c : ℝ) (a : Vec3) : (c • a).z = c * a.z := rfl
@[simp] theorem zero_x : (0 : Vec3).x = 0 := rfl
@[simp] theorem zero_y : (0 : Vec3).y = 0 := rfl
@[simp] theorem zero_z : (0 : Vec3).z = 0 := rfl
@[simp] theorem mk_x (a b c : ℝ) : (Vec3.mk a b c).x = a := rfl
@[simp] theorem mk_y (a b c : ℝ) : (Vec3.mk a b c).y = b := rfl
@[simp] theorem mk_z (a b c : ℝ) : (Vec3.mk a b c).z = c := rfl

/-- A vector is zero exactly when all three components vanish. -/
theorem eq_zero_iff (v : Vec3) : v = 0 ↔ v.x = 0 ∧ v.y = 0 ∧ v.z = 0 := by
  constructor
  · intro h
    subst h
    exact ⟨rfl, rfl, rfl⟩
  · rintro ⟨hx, hy, hz⟩
    ext <;> simpa

end Vec3

@[simp] theorem dot_xU (p : Vec3) : dot p xU = p.x := by
  unfold dot xU; simp

@[simp] theorem dot_yU (p : Vec3) : dot p yU = p.y := by
  unfold dot yU; simp

@[simp] theorem dot_zU (p : Vec3) : dot p zU = p.z := by
  unfold dot zU; simp

theorem cross_zU (n : Vec3) : cross n zU = ⟨n.y, -n.x, 0⟩ := by
  unfold cross zU; ext <;> simp

theorem cross_xU (n : Vec3) : cross n xU = ⟨0, n.z, -n.y⟩ := by
  unfold cross xU; ext <;> simp

theorem dot_self_nonneg (v : Vec3) : 0 ≤ dot v v :=
  add_nonneg (add_nonneg (mul_self_nonneg _) (mul_self_nonneg _)) (mul_self_nonneg _)

theorem norm3_nonneg (v : Vec3) : 0 ≤ norm3 v := Real.sqrt_nonneg _

theorem norm3_pos {v : Vec3} (h : 0 < dot v v) : 0 < norm3 v := Real.sqrt_pos.mpr h

/-- Evaluate the norm at a vector whose squared length is a known square. -/
theorem norm3_eval {v : Vec3} {r : ℝ} (hr : 0 ≤ r) (hdot : dot v v = r ^ 2) :
    norm3 v = r := by
  rw [norm3, hdot, Real.sqrt_sq hr]

theorem norm3_smul (c : ℝ) (v : Vec3) : norm3 (c • v) = |c| * norm3 v := by
  have h : dot (c • v) (c • v) = c ^ 2 * dot v v := by unfold dot; simp; ring
  rw [norm3, h, Real.sqrt_mul (sq_nonneg c), Real.sqrt_sq_eq_abs, norm3]

/-- The horizontal ellipse semi-axis of the source configuration:
`50 * tan(45 deg) = 50`. -/
theorem cfgSource_rx :
    cfgSource.init_center_dist * Real.tan (cfgSource.h_fov / 2 * (Real.pi / 180)) = 50 := by
  have h : (90 : ℝ) / 2 * (Real.pi / 180) = Real.pi / 4 := by ring
  show (50 : ℝ) * Real.tan ((90 : ℝ) / 2 * (Real.pi / 180)) = 50
  rw [h, Real.tan_pi_div_four, mul_one]

/-- The vertical ellipse semi-axis of the source configuration is
`50 * tan(22.5 deg)`. -/
theorem cfgSource_rz :
    cfgSource.init_center_dist * Real.tan (cfgSource.v_fov / 2 * (Real.pi / 180)) =
      50 * Real.tan (Real.pi / 8) := by
  have h : (45 : ℝ) / 2 * (Real.pi / 180) = Real.pi / 8 := by ring
  show (50 : ℝ) * Real.tan ((45 : ℝ) / 2 * (Real.pi / 180)) = _
  rw [h]

theorem tan_pi_div_eight_pos : 0 < Real.tan (Real.pi / 8) :=
  Real.tan_pos_of_pos_of_lt_pi_div_two (by positivity) (by linarith [Real.pi_pos])

theorem tan_pi_div_eight_lt_one : Real.tan (Real.pi / 8) < 1 := by
  have h := Real.tan_lt_tan_of_nonneg_of_lt_pi_div_two
    (x := Real.pi / 8) (y := Real.pi / 4)
    (by positivity) (by linarith [Real.pi_pos]) (by linarith [Real.pi_pos])
  rwa [Real.tan_pi_div_four] at h

/-- The bounds check of the source configuration, written out. -/
theorem inb_source_iff (p : Vec3) :
    is_within_bounds cfgSource p ↔
      (50 / p.y * p.x) ^ 2 / 2500
        + (50 / p.y * p.z) ^ 2 / (50 * Real.tan (Real.pi / 8)) ^ 2 ≤ 1 := by
  unfold is_within_bounds
  rw [cfgSource_rx, cfgSource_rz]
  simp only [dot_yU, dot_xU, dot_zU, Vec3.smul_x, Vec3.smul_z]
  norm_num [show cfgSource.init_center_dist = 50 from rfl]

/-- Inside the source-configuration bounds, `x^2 <= y^2` (away from the `y = 0`
plane). -/
theorem inb_source_x_sq {p : Vec3} (hy : p.y ≠ 0)
    (h : is_within_bounds cfgSource p) : p.x ^ 2 ≤ p.y ^ 2 := by
  rw [inb_source_iff] at h
  have hB : 0 ≤ (50 / p.y * p.z) ^ 2 / (50 * Real.tan (Real.pi / 8)) ^ 2 := by positivity
  have hy2 : 0 < p.y ^ 2 := by positivity
  have hexp : (50 / p.y * p.x) ^ 2 / 2500 = p.x ^ 2 / p.y ^ 2 := by
    field_simp
    ring
  rw [hexp] at h
  have hA : p.x ^ 2 / p.y ^ 2 ≤ 1 := by linarith
  calc p.x ^ 2 = p.x ^ 2 / p.y ^ 2 * p.y ^ 2 := by field_simp
    _ ≤ 1 * p.y ^ 2 := mul_le_mul_of_nonneg_right hA (le_of_lt hy2)
    _ = p.y ^ 2 := one_mul _

/-- Inside the source-configuration bounds, `z^2 <= tan(22.5 deg)^2 * y^2`
(away from the `y = 0` plane). -/
theorem inb_source_z_sq {p : Vec3} (hy : p.y ≠ 0)
    (h : is_within_bounds cfgSource p) :
    p.z ^ 2 ≤ Real.tan (Real.pi / 8) ^ 2 * p.y ^ 2 := by
  rw [inb_source_iff] at h
  have ht : 0 < Real.tan (Real.pi / 8) := tan_pi_div_eight_pos
  have hA : 0 ≤ (50 / p.y * p.x) ^ 2 / 2500 := by positivity
  have hy2 : 0 < p.y ^ 2 := by positivity
  have hexp : (50 / p.y * p.z) ^ 2 / (50 * Real.tan (Real.pi / 8)) ^ 2 =
      p.z ^ 2 / (Real.tan (Real.pi / 8) ^ 2 * p.y ^ 2) := by
    field_simp
    ring
  rw [hexp] at h
  have hden : 0 < Real.tan (Real.pi / 8) ^ 2 * p.y ^ 2 := by positivity
  have hB : p.z ^ 2 / (Real.tan (Real.pi / 8) ^ 2 * p.y ^ 2) ≤ 1 := by linarith
  calc p.z ^ 2
      = p.z ^ 2 / (Real.tan (Real.pi / 8) ^ 2 * p.y ^ 2)
        * (Real.tan (Real.pi / 8) ^ 2 * p.y ^ 2) := by field_simp
    _ ≤ 1 * (Real.tan (Real.pi / 8) ^ 2 * p.y ^ 2) :=
        mul_le_mul_of_nonneg_right hB (le_of_lt hden)
    _ = Real.tan (Real.pi / 8) ^ 2 * p.y ^ 2 := one_mul _

/-- The `y` component of the reflection normal under the source configuration. -/
theorem normal_source_y (p : Vec3) :
    (get_surface_normal cfgSource p).y =
      (norm3 p)⁻¹ * p.y + (norm3 (p - cfgSource.src_coord))⁻¹ * (p.y + 10) := by
  unfold get_surface_normal
  simp [show cfgSource.src_coord = ⟨50, -10, 0⟩ from rfl]

/-- At every point accepted by the source-configuration bounds check, the
reflection normal has a nonzero `y` component (so the horizontal tangent has a
strictly positive `x` component).  The field of view is narrow enough that the
degenerate surface points — those aligned with the observer–source axis — all
lie outside the ellipse. -/
theorem inb_source_normal_y_ne {p : Vec3} (h : is_within_bounds cfgSource p) :
    (get_surface_normal cfgSource p).y ≠ 0 := by
  rw [normal_source_y]
  have hbnn : (0 : ℝ) ≤ (norm3 (p - cfgSource.src_coord))⁻¹ :=
    inv_nonneg.mpr (norm3_nonneg _)
  rcases lt_trichotomy p.y 0 with hy | hy | hy
  · have ha : 0 < norm3 p := norm3_pos (by unfold dot; nlinarith)
    rcases le_or_lt p.y (-10) with hy10 | hy10
    · have h1 : (norm3 p)⁻¹ * p.y < 0 := mul_neg_of_pos_of_neg (inv_pos.mpr ha) hy
      have h2 : (norm3 (p - cfgSource.src_coord))⁻¹ * (p.y + 10) ≤ 0 :=
        mul_nonpos_of_nonneg_of_nonpos hbnn (by linarith)
      exact ne_of_lt (by linarith)
    · -- the geometric branch: -10 < p.y < 0 forces the point far outside
      -- the horizontal field of view unless x and z are small
      have hyne : p.y ≠ 0 := ne_of_lt hy
      have hx2 := inb_source_x_sq hyne h
      have hz2 := inb_source_z_sq hyne h
      have ht0 : 0 < Real.tan (Real.pi / 8) := tan_pi_div_eight_pos
      have ht1 : Real.tan (Real.pi / 8) < 1 := tan_pi_div_eight_lt_one
      have ht2 : Real.tan (Real.pi / 8) ^ 2 ≤ 1 := by nlinarith
      -- |p| <= sqrt 3 * (-p.y)
      have hdot3 : dot p p ≤ 3 * p.y ^ 2 := by unfold dot; nlinarith
      have hsq : norm3 p ≤ Real.sqrt 3 * (-p.y) := by
        have h1 : norm3 p ≤ Real.sqrt (3 * p.y ^ 2) := Real.sqrt_le_sqrt hdot3
        have h2 : Real.sqrt (3 * p.y ^ 2) = Real.sqrt 3 * (-p.y) := by
          rw [Real.sqrt_mul (by norm_num : (0:ℝ) ≤ 3), Real.sqrt_sq_eq_abs,
            abs_of_neg hy]
        rw [h2] at h1
        exact h1
      have hs3 : 0 < Real.sqrt 3 := Real.sqrt_pos.mpr (by norm_num)
      -- first summand is at most -(sqrt 3)⁻¹
      have hterm1 : (norm3 p)⁻¹ * p.y ≤ -(Real.sqrt 3)⁻¹ := by
        have hlow : (Real.sqrt 3 * (-p.y))⁻¹ ≤ (norm3 p)⁻¹ := inv_anti₀ ha hsq
        have hmul := mul_le_mul_of_nonneg_right hlow (by linarith : (0:ℝ) ≤ -p.y)
        have hstep1 : (Real.sqrt 3 * (-p.y))⁻¹ * (-p.y) = (Real.sqrt 3)⁻¹ := by
          rw [mul_inv]
          field_simp
          ring
        rw [hstep1] at hmul
        nlinarith [hmul]
      -- the source sits at x = 50, far from the admissible band |x| < 10
      have hx10 : p.x ≤ 10 := by nlinarith
      have hb40 : 40 ≤ norm3 (p - cfgSource.src_coord) := by
        have hdotb : (1600 : ℝ) ≤ dot (p - cfgSource.src_coord) (p - cfgSource.src_coord) := by
          unfold dot
          simp [show cfgSource.src_coord = ⟨50, -10, 0⟩ from rfl]
          nlinarith [mul_self_nonneg (p.y + 10), mul_self_nonneg p.z,
            mul_nonneg (by linarith : (0:ℝ) ≤ 90 - p.x) (by linarith : (0:ℝ) ≤ 10 - p.x)]
        have h1 : Real.sqrt 1600 ≤ norm3 (p - cfgSource.src_coord) :=
          Real.sqrt_le_sqrt hdotb
        rwa [show (1600:ℝ) = 40 ^ 2 by norm_num, Real.sqrt_sq (by norm_num)] at h1
      have hterm2 : (norm3 (p - cfgSource.src_coord))⁻¹ * (p.y + 10) ≤ 1 / 4 := by
        have hinv : (norm3 (p - cfgSource.src_coord))⁻¹ ≤ (40:ℝ)⁻¹ :=
          inv_anti₀ (by norm_num) hb40
        have : (norm3 (p - cfgSource.src_coord))⁻¹ * (p.y + 10) ≤ (40:ℝ)⁻¹ * 10 :=
          mul_le_mul hinv (by linarith) (by linarith) (by norm_num)
        linarith
      -- sqrt 3 < 4 makes the sum strictly negative
      have h34 : Real.sqrt 3 < 4 := by
        nlinarith [Real.sq_sqrt (by norm_num : (0:ℝ) ≤ 3), Real.sqrt_nonneg 3]
      have hq : (4:ℝ)⁻¹ < (Real.sqrt 3)⁻¹ := inv_strictAnti₀ hs3 h34
      exact ne_of_lt (by nlinarith)
  · -- p.y = 0 : the source term contributes 10 / |p - src| > 0
    have hb : 0 < norm3 (p - cfgSource.src_coord) := by
      apply norm3_pos
      unfold dot
      simp [show cfgSource.src_coord = ⟨50, -10, 0⟩ from rfl]
      nlinarith [mul_self_nonneg (p.x - 50), mul_self_nonneg p.z, hy]
    rw [hy]
    have : 0 < (norm3 (p - cfgSource.src_coord))⁻¹ * (0 + 10) := by
      have := inv_pos.mpr hb
      nlinarith
    exact ne_of_gt (by simpa using this)
  · -- p.y > 0 : both contributions are nonnegative, the first positive
    have ha : 0 < norm3 p := norm3_pos (by unfold dot; nlinarith)
    have h1 : 0 < (norm3 p)⁻¹ * p.y := mul_pos (inv_pos.mpr ha) hy
    have h2 : 0 ≤ (norm3 (p - cfgSource.src_coord))⁻¹ * (p.y + 10) :=
      mul_nonneg hbnn (by linarith)
    exact ne_of_gt (by linarith)

/-- The horizontal branch of the tangent-step computation, with the cross
product evaluated. -/
theorem delta_h_def (cfg : Config) (n : Vec3) :
    get_next_surface_coord_delta cfg n true =
      if dot ((cfg.h_step / norm3 ⟨n.y, -n.x, 0⟩) • (⟨n.y, -n.x, 0⟩ : Vec3)) xU < 0
      then (-1 : ℝ) • ((cfg.h_step / norm3 ⟨n.y, -n.x, 0⟩) • (⟨n.y, -n.x, 0⟩ : Vec3))
      else (cfg.h_step / norm3 ⟨n.y, -n.x, 0⟩) • (⟨n.y, -n.x, 0⟩ : Vec3) := by
  unfold get_next_surface_coord_delta
  rw [cross_zU]
  rfl

/-- The vertical branch of the tangent-step computation, with the cross product
evaluated. -/
theorem delta_v_def (cfg : Config) (n : Vec3) :
    get_next_surface_coord_delta cfg n false =
      if dot ((cfg.v_step / norm3 ⟨0, n.z, -n.y⟩) • (⟨0, n.z, -n.y⟩ : Vec3)) zU < 0
      then (-1 : ℝ) • ((cfg.v_step / norm3 ⟨0, n.z, -n.y⟩) • (⟨0, n.z, -n.y⟩ : Vec3))
      else (cfg.v_step / norm3 ⟨0, n.z, -n.y⟩) • (⟨0, n.z, -n.y⟩ : Vec3) := by
  unfold get_next_surface_coord_delta
  rw [cross_xU]
  rfl

/-- With a positive step size and a normal whose `y` component is nonzero, the
returned horizontal displacement has a strictly positive `x` component. -/
theorem delta_h_x_pos (cfg : Config) {n : Vec3} (hstep : 0 < cfg.h_step)
    (hny : n.y ≠ 0) : 0 < (get_next_surface_coord_delta cfg n true).x := by
  rw [delta_h_def]
  have ho : 0 < norm3 (⟨n.y, -n.x, 0⟩ : Vec3) := by
    apply norm3_pos
    unfold dot
    simp
    nlinarith [mul_self_pos.mpr hny, mul_self_nonneg n.x]
  have hc : 0 < cfg.h_step / norm3 (⟨n.y, -n.x, 0⟩ : Vec3) := div_pos hstep ho
  by_cases hcond :
      dot ((cfg.h_step / norm3 (⟨n.y, -n.x, 0⟩ : Vec3)) • (⟨n.y, -n.x, 0⟩ : Vec3)) xU < 0
  · rw [if_pos hcond]
    simp only [dot_xU, Vec3.smul_x, Vec3.mk_x] at hcond ⊢
    linarith
  · rw [if_neg hcond]
    simp only [dot_xU, Vec3.smul_x, Vec3.mk_x] at hcond ⊢
    push_neg at hcond
    have hne : cfg.h_step / norm3 (⟨n.y, -n.x, 0⟩ : Vec3) * n.y ≠ 0 :=
      mul_ne_zero (ne_of_gt hc) hny
    exact lt_of_le_of_ne hcond (Ne.symm hne)

/-- With a nonnegative step size and a normal not parallel to the z axis, the
horizontal displacement has length exactly the configured step. -/
theorem delta_h_norm (cfg : Config) {n : Vec3} (hstep : 0 ≤ cfg.h_step)
    (hn : ¬ (n.x = 0 ∧ n.y = 0)) :
    norm3 (get_next_surface_coord_delta cfg n true) = cfg.h_step := by
  rw [delta_h_def]
  have hoo : 0 < dot (⟨n.y, -n.x, 0⟩ : Vec3) (⟨n.y, -n.x, 0⟩ : Vec3) := by
    unfold dot
    simp
    rcases not_and_or.mp hn with hx | hy
    · nlinarith [mul_self_pos.mpr hx, mul_self_nonneg n.y]
    · nlinarith [mul_self_pos.mpr hy, mul_self_nonneg n.x]
  have ho : 0 < norm3 (⟨n.y, -n.x, 0⟩ : Vec3) := norm3_pos hoo
  have hc : 0 ≤ cfg.h_step / norm3 (⟨n.y, -n.x, 0⟩ : Vec3) :=
    div_nonneg hstep (le_of_lt ho)
  have hbase :
      norm3 ((cfg.h_step / norm3 (⟨n.y, -n.x, 0⟩ : Vec3)) • (⟨n.y, -n.x, 0⟩ : Vec3)) =
        cfg.h_step := by
    rw [norm3_smul, abs_of_nonneg hc, div_mul_cancel₀]
    exact ne_of_gt ho
  by_cases hcond :
      dot ((cfg.h_step / norm3 (⟨n.y, -n.x, 0⟩ : Vec3)) • (⟨n.y, -n.x, 0⟩ : Vec3)) xU < 0
  · rw [if_pos hcond, norm3_smul, hbase]
    norm_num
  · rw [if_neg hcond, hbase]

/-- The horizontal displacement is orthogonal to the normal it was derived
from, and to the vertical axis. -/
theorem delta_h_orth (cfg : Config) (n : Vec3) :
    dot (get_next_surface_coord_delta cfg n true) n = 0 ∧
      dot (get_next_surface_coord_delta cfg n true) zU = 0 := by
  rw [delta_h_def]
  by_cases hcond :
      dot ((cfg.h_step / norm3 (⟨n.y, -n.x, 0⟩ : Vec3)) • (⟨n.y, -n.x, 0⟩ : Vec3)) xU < 0
  · rw [if_pos hcond]
    constructor <;> (simp [dot, zU]; try ring)
  · rw [if_neg hcond]
    constructor <;> (simp [dot, zU]; try ring)

theorem march_zero (cfg : Config) (h : Bool) (d : ℝ) (p : Vec3) :
    march cfg h d 0 p = [] := rfl

theorem march_succ (cfg : Config) (h : Bool) (d : ℝ) (n : Nat) (p : Vec3) :
    march cfg h d (n + 1) p =
      if is_within_bounds cfg p then
        stepPt cfg h d p :: march cfg h d n (stepPt cfg h d p)
      else [] := rfl

theorem march_succ_of_inb (cfg : Config) (h : Bool) (d : ℝ) (n : Nat) (p : Vec3)
    (hp : is_within_bounds cfg p) :
    march cfg h d (n + 1) p = stepPt cfg h d p :: march cfg h d n (stepPt cfg h d p) := by
  rw [march_succ, if_pos hp]

theorem march_succ_of_oob (cfg : Config) (h : Bool) (d : ℝ) (n : Nat) (p : Vec3)
    (hp : ¬ is_within_bounds cfg p) :
    march cfg h d (n + 1) p = [] := by
  rw [march_succ, if_neg hp]

/-- A nonempty march means the loop guard held at its starting point. -/
theorem inb_of_march_ne_nil {cfg : Config} {h : Bool} {d : ℝ} {n : Nat} {p : Vec3}
    (hne : march cfg h d n p ≠ []) : is_within_bounds cfg p := by
  cases n with
  | zero => exact absurd rfl hne
  | succ n =>
    by_cases hp : is_within_bounds cfg p
    · exact hp
    · exact absurd (march_succ_of_oob cfg h d n p hp) hne

/-- Every marched point except possibly the last passed the loop guard: the
loop re-checks the bounds only after appending. -/
theorem mem_march_dropLast_inb (cfg : Config) (h : Bool) (d : ℝ) :
    ∀ (n : Nat) (p q : Vec3), q ∈ (march cfg h d n p).dropLast →
      is_within_bounds cfg q := by
  intro n
  induction n with
  | zero => intro p q hq; simp [march_zero] at hq
  | succ n ih =>
    intro p q hq
    by_cases hp : is_within_bounds cfg p
    · rw [march_succ_of_inb cfg h d n p hp] at hq
      rcases hrest : march cfg h d n (stepPt cfg h d p) with _ | ⟨r, rest⟩
      · rw [hrest] at hq; simp at hq
      · rw [hrest, List.dropLast_cons₂] at hq
        rcases List.mem_cons.mp hq with hq | hq
        · subst hq
          exact inb_of_march_ne_nil (by rw [hrest]; exact List.cons_ne_nil r rest)
        · exact ih (stepPt cfg h d p) q (by rw [hrest]; exact hq)
    · rw [march_succ_of_oob cfg h d n p hp] at hq; simp at hq

/-- Fuel-stability propagates: once one extra unit of fuel changes nothing, the
loop has terminated and any further fuel changes nothing either. -/
theorem march_stable_succ (cfg : Config) (h : Bool) (d : ℝ) :
    ∀ (n : Nat) (p : Vec3), march cfg h d (n + 1) p = march cfg h d n p →
      march cfg h d (n + 2) p = march cfg h d (n + 1) p := by
  intro n
  induction n with
  | zero =>
    intro p hp
    have hoob : ¬ is_within_bounds cfg p := by
      intro hib
      rw [march_zero] at hp
      exact List.cons_ne_nil _ _ (march_succ_of_inb cfg h d 0 p hib ▸ hp)
    rw [march_succ_of_oob cfg h d 1 p hoob, march_succ_of_oob cfg h d 0 p hoob]
  | succ n ih =>
    intro p hp
    by_cases hib : is_within_bounds cfg p
    · rw [march_succ_of_inb cfg h d (n + 2) p hib, march_succ_of_inb cfg h d (n + 1) p hib]
      rw [march_succ_of_inb cfg h d (n + 1) p hib, march_succ_of_inb cfg h d n p hib] at hp
      have := ih (stepPt cfg h d p) (List.cons.injEq _ _ _ _ ▸ hp).2
      rw [this]
    · rw [march_succ_of_oob cfg h d (n + 2) p hib, march_succ_of_oob cfg h d (n + 1) p hib]

theorem march_stable (cfg : Config) (h : Bool) (d : ℝ) (n : Nat) (p : Vec3)
    (hstab : march cfg h d (n + 1) p = march cfg h d n p) :
    ∀ m, n ≤ m → march cfg h d m p = march cfg h d n p := by
  have key : ∀ k, march cfg h d (n + k) p = march cfg h d n p := by
    intro k
    induction k with
    | zero => rfl
    | succ k ih =>
      have : ∀ k, march cfg h d (n + k + 1) p = march cfg h d (n + k) p := by
        intro k
        induction k with
        | zero => exact hstab
        | succ k ih2 => exact march_stable_succ cfg h d (n + k) p ih2
      calc march cfg h d (n + (k + 1)) p = march cfg h d (n + k + 1) p := by ring_nf
        _ = march cfg h d (n + k) p := this k
        _ = march cfg h d n p := ih
  intro m hm
  obtain ⟨k, rfl⟩ := Nat.exists_eq_add_of_le hm
  exact key k

/-- When the loop has genuinely terminated (one more unit of fuel changes
nothing), its last collected point failed the bounds check: the loop appends the
out-of-bounds candidate and only then stops. -/
theorem march_getLast_oob (cfg : Config) (h : Bool) (d : ℝ) :
    ∀ (n : Nat) (p q : Vec3), march cfg h d (n + 1) p = march cfg h d n p →
      (march cfg h d n p).getLast? = some q → ¬ is_within_bounds cfg q := by
  intro n
  induction n with
  | zero => intro p q _ hlast; simp [march_zero] at hlast
  | succ n ih =>
    intro p q hstab hlast
    by_cases hib : is_within_bounds cfg p
    · rw [march_succ_of_inb cfg h d (n + 1) p hib, march_succ_of_inb cfg h d n p hib]
        at hstab
      have htail : march cfg h d (n + 1) (stepPt cfg h d p) =
          march cfg h d n (stepPt cfg h d p) := (List.cons.injEq _ _ _ _ ▸ hstab).2
      rw [march_succ_of_inb cfg h d n p hib] at hlast
      rcases hrest : march cfg h d n (stepPt cfg h d p) with _ | ⟨r, rest⟩
      · rw [hrest] at hlast
        simp at hlast
        subst hlast
        intro hq
        rw [hrest] at htail
        exact List.cons_ne_nil _ _ (march_succ_of_inb cfg h d n _ hq ▸ htail)
      · rw [hrest] at hlast
        rw [List.getLast?_cons_cons] at hlast
        exact ih (stepPt cfg h d p) q htail (hrest ▸ hlast)
    · rw [march_succ_of_oob cfg h d n p hib] at hlast
      simp at hlast

theorem cfgSource_h_step_pos : 0 < cfgSource.h_step := by norm_num [cfgSource]

/-- Under the source configuration, every point collected by the rightward
horizontal march lies strictly to the right of the starting point. -/
theorem march_h_pos_x_gt :
    ∀ (n : Nat) (p q : Vec3), q ∈ march cfgSource true 1 n p → p.x < q.x := by
  intro n
  induction n with
  | zero => intro p q hq; simp [march_zero] at hq
  | succ n ih =>
    intro p q hq
    by_cases hp : is_within_bounds cfgSource p
    · rw [march_succ_of_inb cfgSource true 1 n p hp] at hq
      have hdx : 0 < (get_next_surface_coord_delta cfgSource
          (get_surface_normal cfgSource p) true).x :=
        delta_h_x_pos cfgSource cfgSource_h_step_pos (inb_source_normal_y_ne hp)
      have hxstep : p.x < (stepPt cfgSource true 1 p).x := by
        show p.x < p.x + 1 * (get_next_surface_coord_delta cfgSource
          (get_surface_normal cfgSource p) true).x
        linarith
      rcases List.mem_cons.mp hq with hq | hq
      · exact hq ▸ hxstep
      · exact lt_trans hxstep (ih (stepPt cfgSource true 1 p) q hq)
    · rw [march_succ_of_oob cfgSource true 1 n p hp] at hq
      simp at hq

/-- Under the source configuration, every point collected by the leftward
horizontal march lies strictly to the left of the starting point. -/
theorem march_h_neg_x_lt :
    ∀ (n : Nat) (p q : Vec3), q ∈ march cfgSource true (-1) n p → q.x < p.x := by
  intro n
  induction n with
  | zero => intro p q hq; simp [march_zero] at hq
  | succ n ih =>
    intro p q hq
    by_cases hp : is_within_bounds cfgSource p
    · rw [march_succ_of_inb cfgSource true (-1) n p hp] at hq
      have hdx : 0 < (get_next_surface_coord_delta cfgSource
          (get_surface_normal cfgSource p) true).x :=
        delta_h_x_pos cfgSource cfgSource_h_step_pos (inb_source_normal_y_ne hp)
      have hxstep : (stepPt cfgSource true (-1) p).x < p.x := by
        show p.x + (-1) * (get_next_surface_coord_delta cfgSource
          (get_surface_normal cfgSource p) true).x < p.x
        linarith
      rcases List.mem_cons.mp hq with hq | hq
      · exact hq ▸ hxstep
      · exact lt_trans (ih (stepPt cfgSource true (-1) p) q hq) hxstep
    · rw [march_succ_of_oob cfgSource true (-1) n p hp] at hq
      simp at hq

/-- C2: for every seed point and any fuel, the slice returned by
`get_horizontal_slice` under the source configuration contains the seed point
exactly once — it occurs at the index equal to the number of points produced by
the negative-direction march, and at no other index. -/
theorem slice_seed_exactly_once_at_neg_count (fuel : Nat) (seed : Vec3) :
    (get_horizontal_slice cfgSource fuel seed)[(march cfgSource true (-1) fuel
        seed).length]? = some seed ∧
      ∀ i, (get_horizontal_slice cfgSource fuel seed)[i]? = some seed →
        i = (march cfgSource true (-1) fuel seed).length := by
  unfold get_horizontal_slice
  have hlenrev : (march cfgSource true (-1) fuel seed).reverse.length =
      (march cfgSource true (-1) fuel seed).length := List.length_reverse _
  constructor
  · rw [List.getElem?_append_right (le_of_eq hlenrev), hlenrev, Nat.sub_self]
    exact List.getElem?_cons_zero
  · intro i hi
    rcases lt_trichotomy i (march cfgSource true (-1) fuel seed).length with hlt | heq | hgt
    · have hi2 : i < (march cfgSource true (-1) fuel seed).reverse.length := by
        rw [hlenrev]; exact hlt
      rw [List.getElem?_append_left hi2] at hi
      have hmem : seed ∈ march cfgSource true (-1) fuel seed :=
        List.mem_reverse.mp (List.getElem?_mem hi)
      exact absurd (march_h_neg_x_lt fuel seed seed hmem) (lt_irrefl _)
    · exact heq
    · have hge : (march cfgSource true (-1) fuel seed).reverse.length ≤ i := by
        rw [hlenrev]; omega
      rw [List.getElem?_append_right hge, hlenrev] at hi
      obtain ⟨j, hj⟩ : ∃ j, i - (march cfgSource true (-1) fuel seed).length = j + 1 :=
        ⟨i - (march cfgSource true (-1) fuel seed).length - 1, by omega⟩
      rw [hj, List.getElem?_cons_succ] at hi
      have hmem : seed ∈ march cfgSource true 1 fuel seed := List.getElem?_mem hi
      exact absurd (march_h_pos_x_gt fuel seed seed hmem) (lt_irrefl _)

/-- C3: for every normal vector not parallel to the vertical axis (some
horizontal component is nonzero), the horizontal tangent step has magnitude
exactly the configured `h_step`, zero dot product with the normal, and zero dot
product with the vertical axis. -/
theorem delta_h_magnitude_orthogonal {n : Vec3} (hn : ¬ (n.x = 0 ∧ n.y = 0)) :
    norm3 (get_next_surface_coord_delta cfgSource n true) = cfgSource.h_step ∧
      dot (get_next_surface_coord_delta cfgSource n true) n = 0 ∧
      dot (get_next_surface_coord_delta cfgSource n true) zU = 0 :=
  ⟨delta_h_norm cfgSource (le_of_lt cfgSource_h_step_pos) hn, delta_h_orth cfgSource n⟩

/-- Witness for C3 at the concrete normal `(1, 0, 0)`. -/
theorem delta_h_magnitude_orthogonal_witness :
    ¬ ((⟨1, 0, 0⟩ : Vec3).x = 0 ∧ (⟨1, 0, 0⟩ : Vec3).y = 0) ∧
      (norm3 (get_next_surface_coord_delta cfgSource ⟨1, 0, 0⟩ true) = cfgSource.h_step ∧
        dot (get_next_surface_coord_delta cfgSource ⟨1, 0, 0⟩ true) ⟨1, 0, 0⟩ = 0 ∧
        dot (get_next_surface_coord_delta cfgSource ⟨1, 0, 0⟩ true) zU = 0) :=
  ⟨by norm_num, delta_h_magnitude_orthogonal (by norm_num)⟩

/-- C4: for every point whose component along the observer axis is nonzero, the
code's bounds check agrees with the spec's formula — project by
`seed_distance / (point . y)` and test `(x_proj/r_h)^2 + (z_proj/r_v)^2 <= 1`
with the tangent-based semi-axes. -/
theorem is_within_bounds_iff_spec {p : Vec3} (hy : dot p yU ≠ 0) :
    is_within_bounds cfgSource p ↔ within_bounds_spec cfgSource p := by
  unfold is_within_bounds within_bounds_spec
  rw [div_pow, div_pow, dot_xU, dot_zU]

/-- Witness for C4 at the seed point `(0, 50, 0)`. -/
theorem is_within_bounds_iff_spec_witness :
    dot seedSource yU ≠ 0 ∧
      (is_within_bounds cfgSource seedSource ↔ within_bounds_spec cfgSource seedSource) :=
  ⟨by norm_num [seedSource], is_within_bounds_iff_spec (by norm_num [seedSource])⟩

/-- C8: the surface build is deterministic — identical configuration, fuel and
seed produce identical meshes.  The embedded marching is a pure function of
these inputs (the source reads only the never-mutated module constants), so two
runs agree exactly. -/
theorem build_surface_deterministic (cfg1 cfg2 : Config) (f1 f2 : Nat) (s1 s2 : Vec3)
    (hcfg : cfg1 = cfg2) (hfuel : f1 = f2) (hseed : s1 = s2) :
    build_surface cfg1 f1 s1 = build_surface cfg2 f2 s2 := by
  subst hcfg
  subst hfuel
  subst hseed
  rfl

/-- Witness for C8 at the source configuration and seed. -/
theorem build_surface_deterministic_witness :
    cfgSource = cfgSource ∧ seedSource = seedSource ∧
      build_surface cfgSource 5 seedSource = build_surface cfgSource 5 seedSource :=
  ⟨rfl, rfl,
    build_surface_deterministic cfgSource cfgSource 5 5 seedSource seedSource rfl rfl rfl⟩

/-- C5 counterexample: with the normal equal to the vertical axis itself (so
the cross product with `z_u` is the zero vector), the tangent-step computation
signals no error at all — it divides by the zero norm and returns the
zero-length displacement (real-division semantics; the numpy original emits NaN
components), silently proceeding. -/
theorem delta_degenerate_returns_zero_vector :
    get_next_surface_coord_delta cfgSource zU true = 0 := by
  rw [delta_h_def]
  have ho : (⟨zU.y, -zU.x, 0⟩ : Vec3) = 0 := by
    rw [Vec3.eq_zero_iff]
    norm_num [zU]
  rw [ho, if_neg (by simp), Vec3.eq_zero_iff]
  simp

/-- C5 amended: when the normal is parallel to the axis used in the cross
product, `get_next_surface_coord_delta` raises no degenerate-normal error; it
proceeds and returns a zero-length tangent (the zero vector under total real
division; NaN components in the numpy original), for the horizontal and the
vertical branch alike, under every configuration. -/
theorem delta_degenerate_no_error (cfg : Config) (c : ℝ) :
    get_next_surface_coord_delta cfg (c • zU) true = 0 ∧
      get_next_surface_coord_delta cfg (c • xU) false = 0 := by
  constructor
  · rw [delta_h_def]
    have ho : (⟨(c • zU).y, -(c • zU).x, 0⟩ : Vec3) = 0 := by
      rw [Vec3.eq_zero_iff]
      norm_num [zU]
    rw [ho, if_neg (by simp), Vec3.eq_zero_iff]
    simp
  · rw [delta_v_def]
    have ho : (⟨0, (c • xU).z, -(c • xU).y⟩ : Vec3) = 0 := by
      rw [Vec3.eq_zero_iff]
      norm_num [xU]
    rw [ho, if_neg (by simp), Vec3.eq_zero_iff]
    simp

/-- Under `cfg180` the horizontal semi-axis degenerates: `tan(90 deg) = 0` in
the real model. -/
theorem cfg180_rx :
    cfg180.init_center_dist * Real.tan (cfg180.h_fov / 2 * (Real.pi / 180)) = 0 := by
  have h : (180 : ℝ) / 2 * (Real.pi / 180) = Real.pi / 2 := by ring
  show (50 : ℝ) * Real.tan ((180 : ℝ) / 2 * (Real.pi / 180)) = 0
  rw [h, Real.tan_pi_div_two, mul_zero]

/-- C6 counterexample: no configuration validation exists.  With the horizontal
field of view set to the invalid 180 degrees the program does not reject the
configuration — the bounds check happily evaluates and even accepts the point
`(1000, 50, 0)`, far outside any 180-degree horizontal extent, because the
degenerate semi-axis collapses the x term to `x^2 / 0 = 0`. -/
theorem cfg180_accepts_far_point : is_within_bounds cfg180 ⟨1000, 50, 0⟩ := by
  unfold is_within_bounds
  rw [cfg180_rx]
  norm_num

/-- C6 amended: the program performs no validity check of the configuration; a
field of view of 180 degrees or more is accepted silently.  At `h_fov = 180`
the ellipse test degenerates to the vertical term alone (the x term becomes
`x^2 / 0 = 0` for every point), so marching proceeds with a meaningless bound
instead of an InvalidConfiguration error. -/
theorem cfg180_no_rejection (p : Vec3) :
    is_within_bounds cfg180 p ↔
      (dot ((cfg180.init_center_dist / dot p yU) • p) zU) ^ 2
          / (cfg180.init_center_dist * Real.tan (cfg180.v_fov / 2 * (Real.pi / 180))) ^ 2
        ≤ 1 := by
  unfold is_within_bounds
  rw [cfg180_rx]
  norm_num

/-- C1 counterexample: the slice built from the out-of-bounds seed
`(0, 50, 1000)` contains that point (the seed is always included), so not every
point of every slice satisfies the bounds check. -/
theorem slice_contains_out_of_bounds_point :
    (⟨0, 50, 1000⟩ : Vec3) ∈ get_horizontal_slice cfgSource 1 ⟨0, 50, 1000⟩ ∧
      ¬ is_within_bounds cfgSource ⟨0, 50, 1000⟩ := by
  constructor
  · unfold get_horizontal_slice
    exact List.mem_append_right _ (List.mem_cons_self _ _)
  · rw [inb_source_iff]
    push_neg
    have ht0 := tan_pi_div_eight_pos
    have ht1 := tan_pi_div_eight_lt_one
    have h2 : (50 * Real.tan (Real.pi / 8)) ^ 2 < 2500 := by nlinarith
    have h3 : (0 : ℝ) < (50 * Real.tan (Real.pi / 8)) ^ 2 := by positivity
    have h4 : (1000000 : ℝ) / 2500 < 1000000 / (50 * Real.tan (Real.pi / 8)) ^ 2 :=
      div_lt_div_of_pos_left (by norm_num) h3 h2
    norm_num
    nlinarith [h4]

/-- C1 amended: the loop appends each candidate point before re-testing the
guard, so only the outermost point at either end of a slice (or an
out-of-bounds seed) can fail the bounds check: every point of the slice other
than its first and last elements satisfies `is_within_bounds`, for every
configuration, fuel and seed. -/
theorem slice_interior_within_bounds (cfg : Config) (fuel : Nat) (seed : Vec3) :
    ∀ q ∈ ((get_horizontal_slice cfg fuel seed).dropLast).tail,
      is_within_bounds cfg q := by
  intro q hq
  unfold get_horizontal_slice at hq
  rcases hpos : march cfg true 1 fuel seed with _ | ⟨b, m⟩
  · rw [hpos] at hq
    rcases hneg : march cfg true (-1) fuel seed with _ | ⟨a, l⟩
    · rw [hneg] at hq
      simp at hq
    · rw [hneg, List.dropLast_concat, List.tail_reverse] at hq
      exact mem_march_dropLast_inb cfg true (-1) fuel seed q
        (by rw [hneg]; exact List.mem_reverse.mp hq)
  · rw [hpos, List.dropLast_append_cons, List.dropLast_cons₂] at hq
    rcases hneg : march cfg true (-1) fuel seed with _ | ⟨a, l⟩
    · rw [hneg] at hq
      simp only [List.reverse_nil, List.nil_append, List.tail_cons] at hq
      exact mem_march_dropLast_inb cfg true 1 fuel seed q (by rw [hpos]; exact hq)
    · rw [hneg, List.tail_append_of_ne_nil (by simp)] at hq
      rcases List.mem_append.mp hq with hq | hq
      · rw [List.tail_reverse] at hq
        exact mem_march_dropLast_inb cfg true (-1) fuel seed q
          (by rw [hneg]; exact List.mem_reverse.mp hq)
      · rcases List.mem_cons.mp hq with hq | hq
        · subst hq
          exact inb_of_march_ne_nil (by rw [hneg]; exact List.cons_ne_nil a l)
        · exact mem_march_dropLast_inb cfg true 1 fuel seed q (by rw [hpos]; exact hq)

/-- A march started out of bounds collects nothing: the guard fails at once. -/
theorem march_nil_of_oob (cfg : Config) (h : Bool) (d : ℝ) {p : Vec3}
    (hp : ¬ is_within_bounds cfg p) : ∀ n, march cfg h d n p = [] := by
  intro n
  cases n with
  | zero => rfl
  | succ n => exact march_succ_of_oob cfg h d n p hp

/-- A slice seeded at an out-of-bounds point is just the singleton seed. -/
theorem slice_of_oob_seed (cfg : Config) (fuel : Nat) {s : Vec3}
    (hs : ¬ is_within_bounds cfg s) : get_horizontal_slice cfg fuel s = [s] := by
  unfold get_horizontal_slice
  rw [march_nil_of_oob cfg true 1 hs fuel, march_nil_of_oob cfg true (-1) hs fuel]
  rfl

/-- C10: a slice whose seed fails the bounds check is exactly the singleton
containing that seed, produced without any error; and since each vertical
marching loop hands its first out-of-bounds candidate to the slice builder
before stopping, the first and the last slice of the finished mesh (the
vertical loops having genuinely terminated, i.e. being fuel-stable) are such
singleton slices of out-of-bounds points. -/
theorem oob_seed_singleton_slices (cfg : Config) (fuel : Nat) (seed : Vec3)
    (hpos : march cfg false 1 (fuel + 1) seed = march cfg false 1 fuel seed)
    (hneg : march cfg false (-1) (fuel + 1) seed = march cfg false (-1) fuel seed) :
    (∀ s, ¬ is_within_bounds cfg s → get_horizontal_slice cfg fuel s = [s]) ∧
      (∃ q, (build_surface cfg fuel seed).getLast? = some [q] ∧
        ¬ is_within_bounds cfg q) ∧
      (∃ q, (build_surface cfg fuel seed).head? = some [q] ∧
        ¬ is_within_bounds cfg q) := by
  refine ⟨fun s hs => slice_of_oob_seed cfg fuel hs, ?_, ?_⟩
  · -- last slice
    unfold build_surface
    rcases List.eq_nil_or_concat (march cfg false 1 fuel seed) with hnil | ⟨L, q, hLq⟩
    · -- the upward march collected nothing, so the seed itself is out of bounds
      have hoob : ¬ is_within_bounds cfg seed := by
        intro hib
        rw [hnil] at hpos
        exact List.cons_ne_nil _ _ (march_succ_of_inb cfg false 1 fuel seed hib ▸ hpos)
      refine ⟨seed, ?_, hoob⟩
      rw [hnil]
      simp only [List.map_nil, List.getLast?_append, slice_of_oob_seed cfg fuel hoob]
      rfl
    · have hq : (march cfg false 1 fuel seed).getLast? = some q := by
        rw [hLq, List.concat_eq_append, List.getLast?_concat]
      have hoob : ¬ is_within_bounds cfg q :=
        march_getLast_oob cfg false 1 fuel seed q hpos hq
      refine ⟨q, ?_, hoob⟩
      rw [hLq, List.concat_eq_append, List.map_append]
      rw [show ((march cfg false (-1) fuel seed).map (get_horizontal_slice cfg fuel)).reverse
            ++ get_horizontal_slice cfg fuel seed
            :: ((L.map (get_horizontal_slice cfg fuel))
              ++ [q].map (get_horizontal_slice cfg fuel)) =
          (((march cfg false (-1) fuel seed).map (get_horizontal_slice cfg fuel)).reverse
            ++ get_horizontal_slice cfg fuel seed :: L.map (get_horizontal_slice cfg fuel))
            ++ [get_horizontal_slice cfg fuel q] by simp]
      rw [List.getLast?_concat, slice_of_oob_seed cfg fuel hoob]
  · -- first slice
    unfold build_surface
    rcases List.eq_nil_or_concat (march cfg false (-1) fuel seed) with hnil | ⟨L, q, hLq⟩
    · have hoob : ¬ is_within_bounds cfg seed := by
        intro hib
        rw [hnil] at hneg
        exact List.cons_ne_nil _ _ (march_succ_of_inb cfg false (-1) fuel seed hib ▸ hneg)
      refine ⟨seed, ?_, hoob⟩
      rw [hnil]
      simp only [List.map_nil, List.reverse_nil, List.nil_append, List.head?_cons,
        slice_of_oob_seed cfg fuel hoob]
    · have hq : (march cfg false (-1) fuel seed).getLast? = some q := by
        rw [hLq, List.concat_eq_append, List.getLast?_concat]
      have hoob : ¬ is_within_bounds cfg q :=
        march_getLast_oob cfg false (-1) fuel seed q hneg hq
      refine ⟨q, ?_, hoob⟩
      rw [List.head?_append, List.head?_reverse, hLq, List.concat_eq_append,
        List.map_append, List.getLast?_append]
      simp [slice_of_oob_seed cfg fuel hoob]

theorem cfgBig_rx :
    cfgBig.init_center_dist * Real.tan (cfgBig.h_fov / 2 * (Real.pi / 180)) = 50 := by
  have h : (90 : ℝ) / 2 * (Real.pi / 180) = Real.pi / 4 := by ring
  show (50 : ℝ) * Real.tan ((90 : ℝ) / 2 * (Real.pi / 180)) = 50
  rw [h, Real.tan_pi_div_four, mul_one]

theorem cfgBig_rz :
    cfgBig.init_center_dist * Real.tan (cfgBig.v_fov / 2 * (Real.pi / 180)) = 50 := by
  have h : (90 : ℝ) / 2 * (Real.pi / 180) = Real.pi / 4 := by ring
  show (50 : ℝ) * Real.tan ((90 : ℝ) / 2 * (Real.pi / 180)) = 50
  rw [h, Real.tan_pi_div_four, mul_one]

theorem inb_big_iff (p : Vec3) :
    is_within_bounds cfgBig p ↔
      (50 / p.y * p.x) ^ 2 / 2500 + (50 / p.y * p.z) ^ 2 / 2500 ≤ 1 := by
  unfold is_within_bounds
  rw [cfgBig_rx, cfgBig_rz]
  simp only [dot_yU, dot_xU, dot_zU, Vec3.smul_x, Vec3.smul_z]
  norm_num [show cfgBig.init_center_dist = 50 from rfl]

theorem cfgTwoStep_rx :
    cfgTwoStep.init_center_dist * Real.tan (cfgTwoStep.h_fov / 2 * (Real.pi / 180)) =
      50 := by
  have h : (90 : ℝ) / 2 * (Real.pi / 180) = Real.pi / 4 := by ring
  show (50 : ℝ) * Real.tan ((90 : ℝ) / 2 * (Real.pi / 180)) = 50
  rw [h, Real.tan_pi_div_four, mul_one]

theorem cfgTwoStep_rz :
    cfgTwoStep.init_center_dist * Real.tan (cfgTwoStep.v_fov / 2 * (Real.pi / 180)) =
      50 := by
  have h : (90 : ℝ) / 2 * (Real.pi / 180) = Real.pi / 4 := by ring
  show (50 : ℝ) * Real.tan ((90 : ℝ) / 2 * (Real.pi / 180)) = 50
  rw [h, Real.tan_pi_div_four, mul_one]

theorem inb_twostep_iff (p : Vec3) :
    is_within_bounds cfgTwoStep p ↔
      (50 / p.y * p.x) ^ 2 / 2500 + (50 / p.y * p.z) ^ 2 / 2500 ≤ 1 := by
  unfold is_within_bounds
  rw [cfgTwoStep_rx, cfgTwoStep_rz]
  simp only [dot_yU, dot_xU, dot_zU, Vec3.smul_x, Vec3.smul_z]
  norm_num [show cfgTwoStep.init_center_dist = 50 from rfl]

theorem normal_big_seed : get_surface_normal cfgBig ⟨0, 50, 0⟩ = ⟨0, 2, 0⟩ := by
  unfold get_surface_normal
  have h1 : norm3 (⟨0, 50, 0⟩ : Vec3) = 50 :=
    norm3_eval (by norm_num) (by unfold dot; norm_num)
  have h2 : norm3 ((⟨0, 50, 0⟩ : Vec3) - cfgBig.src_coord) = 50 :=
    norm3_eval (by norm_num)
      (by unfold dot; norm_num [show cfgBig.src_coord = ⟨0, 0, 0⟩ from rfl])
  rw [h1, h2]
  ext <;> simp [show cfgBig.src_coord = ⟨0, 0, 0⟩ from rfl] <;> norm_num

theorem delta_v_big :
    get_next_surface_coord_delta cfgBig ⟨0, 2, 0⟩ false = ⟨0, 0, 1000⟩ := by
  rw [delta_v_def]
  simp only [Vec3.mk_x, Vec3.mk_y, Vec3.mk_z, neg_zero]
  have ho : norm3 (⟨0, 0, -2⟩ : Vec3) = 2 :=
    norm3_eval (by norm_num) (by unfold dot; norm_num)
  rw [ho]
  rw [if_pos (by simp only [dot_zU, Vec3.smul_z, Vec3.mk_z]; norm_num [show cfgBig.v_step = 1000 from rfl])]
  ext <;> simp <;> norm_num [show cfgBig.v_step = 1000 from rfl]

theorem inb_big_seed : is_within_bounds cfgBig ⟨0, 50, 0⟩ := by
  rw [inb_big_iff]
  norm_num

theorem oob_big_top : ¬ is_within_bounds cfgBig ⟨0, 50, 1000⟩ := by
  rw [inb_big_iff]
  norm_num

theorem oob_big_bottom : ¬ is_within_bounds cfgBig ⟨0, 50, -1000⟩ := by
  rw [inb_big_iff]
  norm_num

theorem march_big_up_one :
    march cfgBig false 1 1 ⟨0, 50, 0⟩ = [⟨0, 50, 1000⟩] := by
  rw [march_succ_of_inb cfgBig false 1 0 _ inb_big_seed]
  have hstep : stepPt cfgBig false 1 ⟨0, 50, 0⟩ = ⟨0, 50, 1000⟩ := by
    unfold stepPt
    rw [normal_big_seed, delta_v_big]
    ext <;> norm_num
  rw [hstep, march_zero]

theorem march_big_up_two :
    march cfgBig false 1 2 ⟨0, 50, 0⟩ = [⟨0, 50, 1000⟩] := by
  rw [march_succ_of_inb cfgBig false 1 1 _ inb_big_seed]
  have hstep : stepPt cfgBig false 1 ⟨0, 50, 0⟩ = ⟨0, 50, 1000⟩ := by
    unfold stepPt
    rw [normal_big_seed, delta_v_big]
    ext <;> norm_num
  rw [hstep, march_succ_of_oob cfgBig false 1 0 _ oob_big_top]

theorem march_big_down_one :
    march cfgBig false (-1) 1 ⟨0, 50, 0⟩ = [⟨0, 50, -1000⟩] := by
  rw [march_succ_of_inb cfgBig false (-1) 0 _ inb_big_seed]
  have hstep : stepPt cfgBig false (-1) ⟨0, 50, 0⟩ = ⟨0, 50, -1000⟩ := by
    unfold stepPt
    rw [normal_big_seed, delta_v_big]
    ext <;> norm_num
  rw [hstep, march_zero]

theorem march_big_down_two :
    march cfgBig false (-1) 2 ⟨0, 50, 0⟩ = [⟨0, 50, -1000⟩] := by
  rw [march_succ_of_inb cfgBig false (-1) 1 _ inb_big_seed]
  have hstep : stepPt cfgBig false (-1) ⟨0, 50, 0⟩ = ⟨0, 50, -1000⟩ := by
    unfold stepPt
    rw [normal_big_seed, delta_v_big]
    ext <;> norm_num
  rw [hstep, march_succ_of_oob cfgBig false (-1) 0 _ oob_big_bottom]

/-- Witness for C10: under `cfgBig` both vertical marches terminate within one
step (one extra unit of fuel changes nothing), and the mesh's first and last
slices are out-of-bounds singletons. -/
theorem oob_seed_singleton_slices_witness :
    (march cfgBig false 1 2 ⟨0, 50, 0⟩ = march cfgBig false 1 1 ⟨0, 50, 0⟩ ∧
      march cfgBig false (-1) 2 ⟨0, 50, 0⟩ = march cfgBig false (-1) 1 ⟨0, 50, 0⟩) ∧
      ((∀ s, ¬ is_within_bounds cfgBig s → get_horizontal_slice cfgBig 1 s = [s]) ∧
        (∃ q, (build_surface cfgBig 1 ⟨0, 50, 0⟩).getLast? = some [q] ∧
          ¬ is_within_bounds cfgBig q) ∧
        (∃ q, (build_surface cfgBig 1 ⟨0, 50, 0⟩).head? = some [q] ∧
          ¬ is_within_bounds cfgBig q)) :=
  ⟨⟨by rw [march_big_up_two, march_big_up_one],
      by rw [march_big_down_two, march_big_down_one]⟩,
    oob_seed_singleton_slices cfgBig 1 ⟨0, 50, 0⟩
      (by rw [march_big_up_two, march_big_up_one])
      (by rw [march_big_down_two, march_big_down_one])⟩

theorem normal_ts_seed : get_surface_normal cfgTwoStep ⟨0, 609, 0⟩ = ⟨0, 2, 0⟩ := by
  unfold get_surface_normal
  have h1 : norm3 (⟨0, 609, 0⟩ : Vec3) = 609 :=
    norm3_eval (by norm_num) (by unfold dot; norm_num)
  have h2 : norm3 ((⟨0, 609, 0⟩ : Vec3) - cfgTwoStep.src_coord) = 609 :=
    norm3_eval (by norm_num)
      (by unfold dot; norm_num [show cfgTwoStep.src_coord = ⟨0, 0, 0⟩ from rfl])
  rw [h1, h2]
  ext <;> simp [show cfgTwoStep.src_coord = ⟨0, 0, 0⟩ from rfl] <;> norm_num

theorem delta_ts_seed :
    get_next_surface_coord_delta cfgTwoStep ⟨0, 2, 0⟩ true = ⟨580, 0, 0⟩ := by
  rw [delta_h_def]
  simp only [Vec3.mk_x, Vec3.mk_y, neg_zero]
  have ho : norm3 (⟨2, 0, 0⟩ : Vec3) = 2 :=
    norm3_eval (by norm_num) (by unfold dot; norm_num)
  rw [ho]
  rw [if_neg (by simp only [dot_xU, Vec3.smul_x, Vec3.mk_x]; norm_num [show cfgTwoStep.h_step = 580 from rfl])]
  ext <;> simp <;> norm_num [show cfgTwoStep.h_step = 580 from rfl]

theorem normal_ts_right : get_surface_normal cfgTwoStep ⟨580, 609, 0⟩ =
    ⟨40 / 29, 42 / 29, 0⟩ := by
  unfold get_surface_normal
  have h1 : norm3 (⟨580, 609, 0⟩ : Vec3) = 841 :=
    norm3_eval (by norm_num) (by unfold dot; norm_num)
  have h2 : norm3 ((⟨580, 609, 0⟩ : Vec3) - cfgTwoStep.src_coord) = 841 :=
    norm3_eval (by norm_num)
      (by unfold dot; norm_num [show cfgTwoStep.src_coord = ⟨0, 0, 0⟩ from rfl])
  rw [h1, h2]
  ext <;> simp [show cfgTwoStep.src_coord = ⟨0, 0, 0⟩ from rfl] <;> norm_num

theorem delta_ts_right :
    get_next_surface_coord_delta cfgTwoStep ⟨40 / 29, 42 / 29, 0⟩ true =
      ⟨420, -400, 0⟩ := by
  rw [delta_h_def]
  simp only [Vec3.mk_x, Vec3.mk_y]
  have ho : norm3 (⟨42 / 29, -(40 / 29), 0⟩ : Vec3) = 2 :=
    norm3_eval (by norm_num) (by unfold dot; norm_num)
  rw [ho]
  rw [if_neg (by simp only [dot_xU, Vec3.smul_x, Vec3.mk_x]; norm_num [show cfgTwoStep.h_step = 580 from rfl])]
  ext <;> simp <;> norm_num [show cfgTwoStep.h_step = 580 from rfl]

theorem normal_ts_left : get_surface_normal cfgTwoStep ⟨-580, 609, 0⟩ =
    ⟨-(40 / 29), 42 / 29, 0⟩ := by
  unfold get_surface_normal
  have h1 : norm3 (⟨-580, 609, 0⟩ : Vec3) = 841 :=
    norm3_eval (by norm_num) (by unfold dot; norm_num)
  have h2 : norm3 ((⟨-580, 609, 0⟩ : Vec3) - cfgTwoStep.src_coord) = 841 :=
    norm3_eval (by norm_num)
      (by unfold dot; norm_num [show cfgTwoStep.src_coord = ⟨0, 0, 0⟩ from rfl])
  rw [h1, h2]
  ext <;> simp [show cfgTwoStep.src_coord = ⟨0, 0, 0⟩ from rfl] <;> norm_num

theorem delta_ts_left :
    get_next_surface_coord_delta cfgTwoStep ⟨-(40 / 29), 42 / 29, 0⟩ true =
      ⟨420, 400, 0⟩ := by
  rw [delta_h_def]
  simp only [Vec3.mk_x, Vec3.mk_y, neg_neg]
  have ho : norm3 (⟨42 / 29, 40 / 29, 0⟩ : Vec3) = 2 :=
    norm3_eval (by norm_num) (by unfold dot; norm_num)
  rw [ho]
  rw [if_neg (by simp only [dot_xU, Vec3.smul_x, Vec3.mk_x]; norm_num [show cfgTwoStep.h_step = 580 from rfl])]
  ext <;> simp <;> norm_num [show cfgTwoStep.h_step = 580 from rfl]

theorem inb_ts_seed : is_within_bounds cfgTwoStep ⟨0, 609, 0⟩ := by
  rw [inb_twostep_iff]
  norm_num

theorem inb_ts_right : is_within_bounds cfgTwoStep ⟨580, 609, 0⟩ := by
  rw [inb_twostep_iff]
  norm_num

theorem inb_ts_left : is_within_bounds cfgTwoStep ⟨-580, 609, 0⟩ := by
  rw [inb_twostep_iff]
  norm_num

theorem march_ts_pos :
    march cfgTwoStep true 1 2 ⟨0, 609, 0⟩ = [⟨580, 609, 0⟩, ⟨1000, 209, 0⟩] := by
  rw [march_succ_of_inb cfgTwoStep true 1 1 _ inb_ts_seed]
  have hstep1 : stepPt cfgTwoStep true 1 ⟨0, 609, 0⟩ = ⟨580, 609, 0⟩ := by
    unfold stepPt
    rw [normal_ts_seed, delta_ts_seed]
    ext <;> norm_num
  rw [hstep1, march_succ_of_inb cfgTwoStep true 1 0 _ inb_ts_right]
  have hstep2 : stepPt cfgTwoStep true 1 ⟨580, 609, 0⟩ = ⟨1000, 209, 0⟩ := by
    unfold stepPt
    rw [normal_ts_right, delta_ts_right]
    ext <;> norm_num
  rw [hstep2, march_zero]

theorem march_ts_neg :
    march cfgTwoStep true (-1) 2 ⟨0, 609, 0⟩ = [⟨-580, 609, 0⟩, ⟨-1000, 209, 0⟩] := by
  rw [march_succ_of_inb cfgTwoStep true (-1) 1 _ inb_ts_seed]
  have hstep1 : stepPt cfgTwoStep true (-1) ⟨0, 609, 0⟩ = ⟨-580, 609, 0⟩ := by
    unfold stepPt
    rw [normal_ts_seed, delta_ts_seed]
    ext <;> norm_num
  rw [hstep1, march_succ_of_inb cfgTwoStep true (-1) 0 _ inb_ts_left]
  have hstep2 : stepPt cfgTwoStep true (-1) ⟨-580, 609, 0⟩ = ⟨-1000, 209, 0⟩ := by
    unfold stepPt
    rw [normal_ts_left, delta_ts_left]
    ext <;> norm_num
  rw [hstep2, march_zero]

theorem slice_ts_eval :
    get_horizontal_slice cfgTwoStep 2 ⟨0, 609, 0⟩ =
      [⟨-1000, 209, 0⟩, ⟨-580, 609, 0⟩, ⟨0, 609, 0⟩, ⟨580, 609, 0⟩, ⟨1000, 209, 0⟩] := by
  unfold get_horizontal_slice
  rw [march_ts_pos, march_ts_neg]
  rfl

/-- Witness for the amended C1: in a slice with two marched points on each
side, the interior point `(580, 609, 0)` (the penultimate point of the
rightward march) satisfies the bounds check. -/
theorem slice_interior_within_bounds_witness :
    (⟨580, 609, 0⟩ : Vec3) ∈
        ((get_horizontal_slice cfgTwoStep 2 ⟨0, 609, 0⟩).dropLast).tail ∧
      is_within_bounds cfgTwoStep ⟨580, 609, 0⟩ :=
  ⟨by rw [slice_ts_eval]; simp,
    slice_interior_within_bounds cfgTwoStep 2 ⟨0, 609, 0⟩ ⟨580, 609, 0⟩
      (by rw [slice_ts_eval]; simp)⟩

theorem dot_self_pos {v : Vec3} (hv : v ≠ 0) : 0 < dot v v := by
  rcases (dot_self_nonneg v).lt_or_eq with h | h
  · exact h
  · exfalso
    have h0 : dot v v = 0 := h.symm
    unfold dot at h0
    have hx : v.x * v.x = 0 := by
      nlinarith [mul_self_nonneg v.x, mul_self_nonneg v.y, mul_self_nonneg v.z]
    have hy : v.y * v.y = 0 := by
      nlinarith [mul_self_nonneg v.x, mul_self_nonneg v.y, mul_self_nonneg v.z]
    have hz : v.z * v.z = 0 := by
      nlinarith [mul_self_nonneg v.x, mul_self_nonneg v.y, mul_self_nonneg v.z]
    exact hv (by
      rw [Vec3.eq_zero_iff]
      exact ⟨mul_self_eq_zero.mp hx, mul_self_eq_zero.mp hy, mul_self_eq_zero.mp hz⟩)

theorem Vec3.sub_eq_zero_iff (u v : Vec3) : u - v = 0 ↔ u = v := by
  rw [Vec3.eq_zero_iff]
  constructor
  · rintro ⟨hx, hy, hz⟩
    ext
    · simpa using sub_eq_zero.mp hx
    · simpa using sub_eq_zero.mp hy
    · simpa using sub_eq_zero.mp hz
  · rintro rfl
    norm_num

/-- C7 counterexample: at the point `P = (50, 120, 0)` (a point with exact
integer distances, 130 to the observer and 130 to the source), the normal at
`2 P` is not a positive multiple of the normal at `P` — the direction of the
reflection normal is not invariant under uniform positive scaling, because the
source term `unit(P - src)` does not scale with `P`. -/
theorem normal_scaling_counterexample :
    ¬ ∃ k : ℝ, 0 < k ∧
      get_surface_normal cfgSource ((2 : ℝ) • ⟨50, 120, 0⟩) =
        k • get_surface_normal cfgSource ⟨50, 120, 0⟩ := by
  rintro ⟨k, -, heq⟩
  have hx := congrArg Vec3.x heq
  have hy := congrArg Vec3.y heq
  unfold get_surface_normal at hx hy
  rw [show cfgSource.src_coord = (⟨50, -10, 0⟩ : Vec3) from rfl] at hx hy
  rw [show (2 : ℝ) • (⟨50, 120, 0⟩ : Vec3) = ⟨100, 240, 0⟩ by ext <;> norm_num] at hx hy
  rw [show (⟨50, 120, 0⟩ : Vec3) - ⟨50, -10, 0⟩ = ⟨0, 130, 0⟩ by ext <;> norm_num] at hx hy
  rw [show (⟨100, 240, 0⟩ : Vec3) - ⟨50, -10, 0⟩ = ⟨50, 250, 0⟩ by ext <;> norm_num] at hx hy
  rw [show norm3 (⟨50, 120, 0⟩ : Vec3) = 130 from
    norm3_eval (by norm_num) (by unfold dot; norm_num)] at hx hy
  rw [show norm3 (⟨0, 130, 0⟩ : Vec3) = 130 from
    norm3_eval (by norm_num) (by unfold dot; norm_num)] at hx hy
  rw [show norm3 (⟨100, 240, 0⟩ : Vec3) = 260 from
    norm3_eval (by norm_num) (by unfold dot; norm_num)] at hx hy
  simp only [Vec3.add_x, Vec3.add_y, Vec3.smul_x, Vec3.smul_y, Vec3.mk_x, Vec3.mk_y]
    at hx hy
  norm_num at hx hy
  linarith

/-- C7 amended: for every point distinct from the observer and the source and
not strictly inside the observer-source segment (the genuinely degenerate
locus, where the two unit vectors cancel), the reflection normal is nonzero.
Its direction, however, is not invariant under uniform positive scaling of the
point (see the counterexample). -/
theorem normal_nonzero_off_segment {p : Vec3} (hp0 : p ≠ 0)
    (hps : p ≠ cfgSource.src_coord)
    (hseg : ¬ ∃ t : ℝ, 0 < t ∧ t < 1 ∧ p = t • cfgSource.src_coord) :
    get_surface_normal cfgSource p ≠ 0 := by
  intro heq
  have hx := congrArg Vec3.x heq
  have hy := congrArg Vec3.y heq
  have hz := congrArg Vec3.z heq
  unfold get_surface_normal at hx hy hz
  rw [show cfgSource.src_coord = (⟨50, -10, 0⟩ : Vec3) from rfl] at hx hy hz
  simp only [Vec3.add_x, Vec3.add_y, Vec3.add_z, Vec3.smul_x, Vec3.smul_y, Vec3.smul_z,
    Vec3.sub_x, Vec3.sub_y, Vec3.sub_z, Vec3.mk_x, Vec3.mk_y, Vec3.mk_z,
    Vec3.zero_x, Vec3.zero_y, Vec3.zero_z] at hx hy hz
  have hap : 0 < norm3 p := norm3_pos (dot_self_pos hp0)
  have hbp : 0 < norm3 (p - (⟨50, -10, 0⟩ : Vec3)) :=
    norm3_pos (dot_self_pos (fun h => hps ((Vec3.sub_eq_zero_iff p _).mp h)))
  have hu : 0 < (norm3 p)⁻¹ := inv_pos.mpr hap
  have hv : 0 < (norm3 (p - (⟨50, -10, 0⟩ : Vec3)))⁻¹ := inv_pos.mpr hbp
  set u := (norm3 p)⁻¹ with hudef
  set v := (norm3 (p - (⟨50, -10, 0⟩ : Vec3)))⁻¹ with hvdef
  rw [show cfgSource.src_coord = (⟨50, -10, 0⟩ : Vec3) from rfl] at hseg
  apply hseg
  have huv : 0 < u + v := by linarith
  refine ⟨v / (u + v), div_pos hv huv, ?_, ?_⟩
  · rw [div_lt_one huv]
    linarith
  · ext
    · show p.x = v / (u + v) * 50
      rw [div_mul_eq_mul_div, eq_div_iff (ne_of_gt huv)]
      nlinarith [hx]
    · show p.y = v / (u + v) * (-10)
      rw [div_mul_eq_mul_div, eq_div_iff (ne_of_gt huv)]
      nlinarith [hy]
    · show p.z = v / (u + v) * 0
      rw [mul_zero]
      have : (u + v) * p.z = 0 := by nlinarith [hz]
      rcases mul_eq_zero.mp this with h | h
      · exact absurd h (ne_of_gt huv)
      · exact h

/-- Witness for the amended C7 at the seed point `(0, 50, 0)`. -/
theorem normal_nonzero_off_segment_witness :
    ((⟨0, 50, 0⟩ : Vec3) ≠ 0 ∧ (⟨0, 50, 0⟩ : Vec3) ≠ cfgSource.src_coord ∧
      ¬ ∃ t : ℝ, 0 < t ∧ t < 1 ∧ (⟨0, 50, 0⟩ : Vec3) = t • cfgSource.src_coord) ∧
      get_surface_normal cfgSource ⟨0, 50, 0⟩ ≠ 0 :=
  ⟨⟨by intro h; have hc := congrArg Vec3.y h; simp at hc,
      by intro h; have hc := congrArg Vec3.y h; norm_num [show cfgSource.src_coord = (⟨50, -10, 0⟩ : Vec3) from rfl] at hc,
      by
        rintro ⟨t, ht0, -, hteq⟩
        have hc := congrArg Vec3.y hteq
        simp [show cfgSource.src_coord = (⟨50, -10, 0⟩ : Vec3) from rfl] at hc
        nlinarith [ht0, hc]⟩,
    normal_nonzero_off_segment
      (by intro h; have hc := congrArg Vec3.y h; simp at hc)
      (by intro h; have hc := congrArg Vec3.y h; norm_num [show cfgSource.src_coord = (⟨50, -10, 0⟩ : Vec3) from rfl] at hc)
      (by
        rintro ⟨t, ht0, -, hteq⟩
        have hc := congrArg Vec3.y hteq
        simp [show cfgSource.src_coord = (⟨50, -10, 0⟩ : Vec3) from rfl] at hc
        nlinarith [ht0, hc])⟩

theorem dot_comm3 (u v : Vec3) : dot u v = dot v u := by
  unfold dot
  ring

theorem dot_add_right (u v w : Vec3) : dot u (v + w) = dot u v + dot u w := by
  unfold dot
  simp
  ring

theorem dot_smul_right (c : ℝ) (u v : Vec3) : dot u (c • v) = c * dot u v := by
  unfold dot
  simp
  ring

theorem dot_smul_self (c : ℝ) (u : Vec3) : dot (c • u) (c • u) = c ^ 2 * dot u u := by
  unfold dot
  simp
  ring

theorem norm3_sq (v : Vec3) : norm3 v ^ 2 = dot v v := Real.sq_sqrt (dot_self_nonneg v)

theorem abs_x_le_norm3 (v : Vec3) : |v.x| ≤ norm3 v := by
  have h : v.x ^ 2 ≤ dot v v := by unfold dot; nlinarith [mul_self_nonneg v.y, mul_self_nonneg v.z]
  calc |v.x| = Real.sqrt (v.x ^ 2) := (Real.sqrt_sq_eq_abs v.x).symm
    _ ≤ Real.sqrt (dot v v) := Real.sqrt_le_sqrt h
    _ = norm3 v := rfl

theorem abs_y_le_norm3 (v : Vec3) : |v.y| ≤ norm3 v := by
  have h : v.y ^ 2 ≤ dot v v := by unfold dot; nlinarith [mul_self_nonneg v.x, mul_self_nonneg v.z]
  calc |v.y| = Real.sqrt (v.y ^ 2) := (Real.sqrt_sq_eq_abs v.y).symm
    _ ≤ Real.sqrt (dot v v) := Real.sqrt_le_sqrt h
    _ = norm3 v := rfl

theorem abs_z_le_norm3 (v : Vec3) : |v.z| ≤ norm3 v := by
  have h : v.z ^ 2 ≤ dot v v := by unfold dot; nlinarith [mul_self_nonneg v.x, mul_self_nonneg v.y]
  calc |v.z| = Real.sqrt (v.z ^ 2) := (Real.sqrt_sq_eq_abs v.z).symm
    _ ≤ Real.sqrt (dot v v) := Real.sqrt_le_sqrt h
    _ = norm3 v := rfl

/-- Cauchy-Schwarz for the coordinate dot product, via the Lagrange identity. -/
theorem dot_sq_le (u v : Vec3) : dot u v ^ 2 ≤ dot u u * dot v v := by
  unfold dot
  nlinarith [sq_nonneg (u.x * v.y - u.y * v.x), sq_nonneg (u.x * v.z - u.z * v.x),
    sq_nonneg (u.y * v.z - u.z * v.y)]

theorem abs_dot_le (u v : Vec3) : |dot u v| ≤ norm3 u * norm3 v := by
  have h := dot_sq_le u v
  have hn : (norm3 u * norm3 v) ^ 2 = dot u u * dot v v := by
    rw [mul_pow, norm3_sq, norm3_sq]
  have hnn : 0 ≤ norm3 u * norm3 v := mul_nonneg (norm3_nonneg u) (norm3_nonneg v)
  nlinarith [abs_nonneg (dot u v), sq_abs (dot u v)]

/-- Second-order upper bound on the growth of the norm under a displacement no
longer than the norm itself: the first-order term is the projection on the unit
radial direction, the second-order term is controlled by the inverse distance. -/
theorem norm3_add_le {P d : Vec3} (ha : 0 < norm3 P) (hd : norm3 d ≤ norm3 P) :
    norm3 (P + d) ≤ norm3 P + dot P d / norm3 P + dot d d / (2 * norm3 P) := by
  set a := norm3 P with hadef
  have ha2 : a ^ 2 = dot P P := norm3_sq P
  have hd2 : norm3 d ^ 2 = dot d d := norm3_sq d
  set q := dot P d with hqdef
  set r := dot d d with hrdef
  have hr0 : 0 ≤ r := dot_self_nonneg d
  have hqlow : -(a * a) ≤ q := by
    have habs : |q| ≤ norm3 d * a := by
      have := abs_dot_le P d
      rw [dot_comm3] at this
      calc |q| = |dot d P| := by rw [hqdef, dot_comm3]
        _ ≤ norm3 d * norm3 P := abs_dot_le d P
        _ = norm3 d * a := rfl
    have h1 : -(norm3 d * a) ≤ q := neg_le_of_abs_le habs
    have h2 : norm3 d * a ≤ a * a := by
      apply mul_le_mul_of_nonneg_right hd (le_of_lt ha)
    linarith
  have hR : 0 ≤ a + q / a + r / (2 * a) := by
    have h1 : -(a * a) / a ≤ q / a := (div_le_div_right ha).mpr hqlow
    have h2 : -(a * a) / a = -a := by field_simp
    have h3 : 0 ≤ r / (2 * a) := div_nonneg hr0 (by linarith)
    rw [h2] at h1
    linarith
  have expand : dot (P + d) (P + d) = a ^ 2 + 2 * q + r := by
    rw [ha2, hqdef, hrdef]
    unfold dot
    simp
    ring
  have hiden : (2 * a) * (a + q / a + r / (2 * a)) = 2 * a ^ 2 + 2 * q + r := by
    field_simp
    ring
  have hsq : (2 * a) ^ 2 * dot (P + d) (P + d) ≤
      ((2 * a) * (a + q / a + r / (2 * a))) ^ 2 := by
    rw [hiden, expand]
    nlinarith [sq_nonneg (2 * q + r)]
  have key : dot (P + d) (P + d) ≤ (a + q / a + r / (2 * a)) ^ 2 := by
    have h4a : 0 < (2 * a) ^ 2 := by positivity
    have hsq2 : (2 * a) ^ 2 * dot (P + d) (P + d) ≤
        (2 * a) ^ 2 * (a + q / a + r / (2 * a)) ^ 2 := by
      calc (2 * a) ^ 2 * dot (P + d) (P + d)
          ≤ ((2 * a) * (a + q / a + r / (2 * a))) ^ 2 := hsq
        _ = (2 * a) ^ 2 * (a + q / a + r / (2 * a)) ^ 2 := by ring
    exact le_of_mul_le_mul_left hsq2 h4a
  calc norm3 (P + d) = Real.sqrt (dot (P + d) (P + d)) := rfl
    _ ≤ Real.sqrt ((a + q / a + r / (2 * a)) ^ 2) := Real.sqrt_le_sqrt key
    _ = a + q / a + r / (2 * a) := Real.sqrt_sq hR

theorem cfgC9_rx :
    cfgC9.init_center_dist * Real.tan (cfgC9.h_fov / 2 * (Real.pi / 180)) = 50 := by
  have h : (90 : ℝ) / 2 * (Real.pi / 180) = Real.pi / 4 := by ring
  show (50 : ℝ) * Real.tan ((90 : ℝ) / 2 * (Real.pi / 180)) = 50
  rw [h, Real.tan_pi_div_four, mul_one]

theorem cfgC9_rz :
    cfgC9.init_center_dist * Real.tan (cfgC9.v_fov / 2 * (Real.pi / 180)) = 50 := by
  have h : (90 : ℝ) / 2 * (Real.pi / 180) = Real.pi / 4 := by ring
  show (50 : ℝ) * Real.tan ((90 : ℝ) / 2 * (Real.pi / 180)) = 50
  rw [h, Real.tan_pi_div_four, mul_one]

theorem inb_C9_iff (p : Vec3) :
    is_within_bounds cfgC9 p ↔
      (50 / p.y * p.x) ^ 2 / 2500 + (50 / p.y * p.z) ^ 2 / 2500 ≤ 1 := by
  unfold is_within_bounds
  rw [cfgC9_rx, cfgC9_rz]
  simp only [dot_yU, dot_xU, dot_zU, Vec3.smul_x, Vec3.smul_z]
  norm_num [show cfgC9.init_center_dist = 50 from rfl]

/-- Inside the scenario bounds and off the `y = 0` plane, the point lies in the
90-degree cone `x^2 + z^2 <= y^2`. -/
theorem inb_C9_sq {p : Vec3} (hy : p.y ≠ 0) (h : is_within_bounds cfgC9 p) :
    p.x ^ 2 + p.z ^ 2 ≤ p.y ^ 2 := by
  rw [inb_C9_iff] at h
  have hy2 : 0 < p.y ^ 2 := by positivity
  have h1 : (50 / p.y * p.x) ^ 2 / 2500 = p.x ^ 2 / p.y ^ 2 := by
    field_simp
    ring
  have h2 : (50 / p.y * p.z) ^ 2 / 2500 = p.z ^ 2 / p.y ^ 2 := by
    field_simp
    ring
  rw [h1, h2, div_add_div_same] at h
  calc p.x ^ 2 + p.z ^ 2 = (p.x ^ 2 + p.z ^ 2) / p.y ^ 2 * p.y ^ 2 := by field_simp
    _ ≤ 1 * p.y ^ 2 := mul_le_mul_of_nonneg_right h (le_of_lt hy2)
    _ = p.y ^ 2 := one_mul _

theorem normal_C9_x (p : Vec3) :
    (get_surface_normal cfgC9 p).x =
      (norm3 p)⁻¹ * p.x + (norm3 (p - ⟨50, -10, 0⟩))⁻¹ * (p.x - 50) := by
  unfold get_surface_normal
  rw [show cfgC9.src_coord = (⟨50, -10, 0⟩ : Vec3) from rfl]
  simp

theorem normal_C9_y (p : Vec3) :
    (get_surface_normal cfgC9 p).y =
      (norm3 p)⁻¹ * p.y + (norm3 (p - ⟨50, -10, 0⟩))⁻¹ * (p.y + 10) := by
  unfold get_surface_normal
  rw [show cfgC9.src_coord = (⟨50, -10, 0⟩ : Vec3) from rfl]
  simp

theorem normal_C9_z (p : Vec3) :
    (get_surface_normal cfgC9 p).z =
      (norm3 p)⁻¹ * p.z + (norm3 (p - ⟨50, -10, 0⟩))⁻¹ * p.z := by
  unfold get_surface_normal
  rw [show cfgC9.src_coord = (⟨50, -10, 0⟩ : Vec3) from rfl]
  simp

/-- Vertical analog of `delta_h_norm`: the vertical displacement has length
exactly the configured vertical step. -/
theorem delta_v_norm (cfg : Config) {n : Vec3} (hstep : 0 ≤ cfg.v_step)
    (hn : ¬ (n.y = 0 ∧ n.z = 0)) :
    norm3 (get_next_surface_coord_delta cfg n false) = cfg.v_step := by
  rw [delta_v_def]
  have hoo : 0 < dot (⟨0, n.z, -n.y⟩ : Vec3) (⟨0, n.z, -n.y⟩ : Vec3) := by
    unfold dot
    simp
    rcases not_and_or.mp hn with hy | hz
    · nlinarith [mul_self_pos.mpr hy, mul_self_nonneg n.z]
    · nlinarith [mul_self_pos.mpr hz, mul_self_nonneg n.y]
  have ho : 0 < norm3 (⟨0, n.z, -n.y⟩ : Vec3) := norm3_pos hoo
  have hc : 0 ≤ cfg.v_step / norm3 (⟨0, n.z, -n.y⟩ : Vec3) :=
    div_nonneg hstep (le_of_lt ho)
  have hbase :
      norm3 ((cfg.v_step / norm3 (⟨0, n.z, -n.y⟩ : Vec3)) • (⟨0, n.z, -n.y⟩ : Vec3)) =
        cfg.v_step := by
    rw [norm3_smul, abs_of_nonneg hc, div_mul_cancel₀]
    exact ne_of_gt ho
  by_cases hcond :
      dot ((cfg.v_step / norm3 (⟨0, n.z, -n.y⟩ : Vec3)) • (⟨0, n.z, -n.y⟩ : Vec3)) zU < 0
  · rw [if_pos hcond, norm3_smul, hbase]
    norm_num
  · rw [if_neg hcond, hbase]

/-- Vertical analog of `delta_h_orth`: the vertical displacement is orthogonal
to the normal and to the x axis. -/
theorem delta_v_orth (cfg : Config) (n : Vec3) :
    dot (get_next_surface_coord_delta cfg n false) n = 0 ∧
      dot (get_next_surface_coord_delta cfg n false) xU = 0 := by
  rw [delta_v_def]
  by_cases hcond :
      dot ((cfg.v_step / norm3 (⟨0, n.z, -n.y⟩ : Vec3)) • (⟨0, n.z, -n.y⟩ : Vec3)) zU < 0
  · rw [if_pos hcond]
    constructor <;> (simp [dot, xU]; try ring)
  · rw [if_neg hcond]
    constructor <;> (simp [dot, xU]; try ring)

/-- Quantitative facts about the reflection normal at an in-bounds scenario
point with positive `y`: the `y` component is positive and bounded below, all
components are bounded, and both normalization denominators are positive. -/
theorem C9_normal_facts {p : Vec3} (hin : is_within_bounds cfgC9 p) (hy : 0 < p.y) :
    0 < norm3 p ∧ 0 < norm3 (p - ⟨50, -10, 0⟩) ∧
      0 < (get_surface_normal cfgC9 p).y ∧
      1 / 2 ≤ (get_surface_normal cfgC9 p).y ^ 2 ∧
      |(get_surface_normal cfgC9 p).x| ≤ 2 ∧
      |(get_surface_normal cfgC9 p).y| ≤ 2 ∧
      |(get_surface_normal cfgC9 p).z| ≤ 2 := by
  have ha : 0 < norm3 p := norm3_pos (by unfold dot; nlinarith)
  have hb : 0 < norm3 (p - ⟨50, -10, 0⟩) := by
    apply norm3_pos
    unfold dot
    simp
    nlinarith [mul_self_nonneg (p.x - 50), mul_self_nonneg p.z]
  have hchar := inb_C9_sq (ne_of_gt hy) hin
  have ha2 : norm3 p ^ 2 ≤ 2 * p.y ^ 2 := by
    rw [norm3_sq]
    unfold dot
    nlinarith
  have hxa := abs_x_le_norm3 p
  have hya := abs_y_le_norm3 p
  have hxb := abs_x_le_norm3 (p - ⟨50, -10, 0⟩)
  have hyb := abs_y_le_norm3 (p - ⟨50, -10, 0⟩)
  have hzb := abs_z_le_norm3 (p - ⟨50, -10, 0⟩)
  have hza := abs_z_le_norm3 p
  simp only [Vec3.sub_x, Vec3.sub_y, Vec3.sub_z, Vec3.mk_x, Vec3.mk_y, Vec3.mk_z]
    at hxb hyb hzb
  have hainv : (0:ℝ) < (norm3 p)⁻¹ := inv_pos.mpr ha
  have hbinv : (0:ℝ) < (norm3 (p - ⟨50, -10, 0⟩))⁻¹ := inv_pos.mpr hb
  have hterm1 : 0 < (norm3 p)⁻¹ * p.y := mul_pos hainv hy
  have hterm2 : 0 < (norm3 (p - ⟨50, -10, 0⟩))⁻¹ * (p.y + 10) :=
    mul_pos hbinv (by linarith)
  have hnypos : 0 < (get_surface_normal cfgC9 p).y := by
    rw [normal_C9_y]
    linarith
  -- generic bound |u⁻¹ * t| ≤ 1 when |t| ≤ u and 0 < u
  have habs_bound : ∀ u t : ℝ, 0 < u → |t| ≤ u → |u⁻¹ * t| ≤ 1 := by
    intro u t hu ht
    rw [abs_mul, abs_inv, abs_of_pos hu]
    calc u⁻¹ * |t| ≤ u⁻¹ * u := mul_le_mul_of_nonneg_left ht (le_of_lt (inv_pos.mpr hu))
      _ = 1 := inv_mul_cancel₀ (ne_of_gt hu)
  refine ⟨ha, hb, hnypos, ?_, ?_, ?_, ?_⟩
  · -- 1/2 ≤ n.y ^ 2
    have hlb : p.y / norm3 p ≤ (get_surface_normal cfgC9 p).y := by
      rw [normal_C9_y, inv_mul_eq_div]
      linarith
    have hq : 1 / 2 ≤ (p.y / norm3 p) ^ 2 := by
      rw [div_pow, le_div_iff (by positivity)]
      nlinarith
    have hmono : (p.y / norm3 p) ^ 2 ≤ (get_surface_normal cfgC9 p).y ^ 2 :=
      pow_le_pow_left (div_nonneg (le_of_lt hy) (le_of_lt ha)) hlb 2
    linarith
  · rw [normal_C9_x]
    calc |(norm3 p)⁻¹ * p.x + (norm3 (p - ⟨50, -10, 0⟩))⁻¹ * (p.x - 50)|
        ≤ |(norm3 p)⁻¹ * p.x| + |(norm3 (p - ⟨50, -10, 0⟩))⁻¹ * (p.x - 50)| :=
          abs_add _ _
      _ ≤ 1 + 1 := add_le_add (habs_bound _ _ ha hxa) (habs_bound _ _ hb hxb)
      _ = 2 := by norm_num
  · rw [normal_C9_y]
    calc |(norm3 p)⁻¹ * p.y + (norm3 (p - ⟨50, -10, 0⟩))⁻¹ * (p.y + 10)|
        ≤ |(norm3 p)⁻¹ * p.y| + |(norm3 (p - ⟨50, -10, 0⟩))⁻¹ * (p.y + 10)| :=
          abs_add _ _
      _ ≤ 1 + 1 := add_le_add (habs_bound _ _ ha hya)
          (habs_bound _ _ hb (by simpa using hyb))
      _ = 2 := by norm_num
  · rw [normal_C9_z]
    calc |(norm3 p)⁻¹ * p.z + (norm3 (p - ⟨50, -10, 0⟩))⁻¹ * p.z|
        ≤ |(norm3 p)⁻¹ * p.z| + |(norm3 (p - ⟨50, -10, 0⟩))⁻¹ * p.z| := abs_add _ _
      _ ≤ 1 + 1 := add_le_add (habs_bound _ _ ha hza)
          (habs_bound _ _ hb (by simpa using hzb))
      _ = 2 := by norm_num

/-- Quantitative facts about the horizontal marching displacement at an
in-bounds scenario point with positive `y`: it moves right by at least 1/4 mm,
moves at most 1 mm in `y`, does not move in `z`, has unit squared length, and
is orthogonal to the local normal. -/
theorem C9_delta_h_facts {p : Vec3} (hin : is_within_bounds cfgC9 p) (hy : 0 < p.y) :
    1 / 4 ≤ (get_next_surface_coord_delta cfgC9 (get_surface_normal cfgC9 p) true).x ∧
      |(get_next_surface_coord_delta cfgC9 (get_surface_normal cfgC9 p) true).y| ≤ 1 ∧
      (get_next_surface_coord_delta cfgC9 (get_surface_normal cfgC9 p) true).z = 0 ∧
      dot (get_next_surface_coord_delta cfgC9 (get_surface_normal cfgC9 p) true)
        (get_next_surface_coord_delta cfgC9 (get_surface_normal cfgC9 p) true) = 1 ∧
      dot (get_next_surface_coord_delta cfgC9 (get_surface_normal cfgC9 p) true)
        (get_surface_normal cfgC9 p) = 0 := by
  obtain ⟨ha, hb, hnypos, hnysq, hnxabs, hnyabs, hnzabs⟩ := C9_normal_facts hin hy
  set n := get_surface_normal cfgC9 p with hndef
  have hoo : dot (⟨n.y, -n.x, 0⟩ : Vec3) (⟨n.y, -n.x, 0⟩ : Vec3) = n.y ^ 2 + n.x ^ 2 := by
    unfold dot
    simp
    ring
  have hoo_pos : 0 < dot (⟨n.y, -n.x, 0⟩ : Vec3) (⟨n.y, -n.x, 0⟩ : Vec3) := by
    rw [hoo]
    nlinarith
  have hoo_le : dot (⟨n.y, -n.x, 0⟩ : Vec3) (⟨n.y, -n.x, 0⟩ : Vec3) ≤ 8 := by
    rw [hoo]
    nlinarith [sq_abs n.x, sq_abs n.y, abs_nonneg n.x, abs_nonneg n.y,
      mul_nonneg (by linarith : (0:ℝ) ≤ 2 - |n.x|) (abs_nonneg n.x),
      mul_nonneg (by linarith : (0:ℝ) ≤ 2 - |n.y|) (abs_nonneg n.y)]
  have ho_pos : 0 < norm3 (⟨n.y, -n.x, 0⟩ : Vec3) := norm3_pos hoo_pos
  have ho_le : norm3 (⟨n.y, -n.x, 0⟩ : Vec3) ≤ 4 * n.y := by
    have h1 : norm3 (⟨n.y, -n.x, 0⟩ : Vec3) ≤ Real.sqrt (16 * n.y ^ 2) := by
      apply Real.sqrt_le_sqrt
      nlinarith
    rwa [show (16 : ℝ) * n.y ^ 2 = (4 * n.y) ^ 2 by ring,
      Real.sqrt_sq (by linarith)] at h1
  have hnxo : |n.x| ≤ norm3 (⟨n.y, -n.x, 0⟩ : Vec3) := by
    have h1 := abs_y_le_norm3 (⟨n.y, -n.x, 0⟩ : Vec3)
    simpa using h1
  have hcpos : 0 < cfgC9.h_step / norm3 (⟨n.y, -n.x, 0⟩ : Vec3) :=
    div_pos (by norm_num [show cfgC9.h_step = 1 from rfl]) ho_pos
  have hcond : ¬ (dot ((cfgC9.h_step / norm3 (⟨n.y, -n.x, 0⟩ : Vec3)) •
      (⟨n.y, -n.x, 0⟩ : Vec3)) xU < 0) := by
    simp only [dot_xU, Vec3.smul_x, Vec3.mk_x]
    push_neg
    exact le_of_lt (mul_pos hcpos hnypos)
  have hdelta : get_next_surface_coord_delta cfgC9 n true =
      (cfgC9.h_step / norm3 (⟨n.y, -n.x, 0⟩ : Vec3)) • (⟨n.y, -n.x, 0⟩ : Vec3) := by
    rw [delta_h_def, if_neg hcond]
  refine ⟨?_, ?_, ?_, ?_, ?_⟩
  · rw [hdelta]
    simp only [Vec3.smul_x, Vec3.mk_x]
    rw [show cfgC9.h_step = 1 from rfl, div_mul_eq_mul_div, one_mul,
      le_div_iff ho_pos]
    linarith
  · rw [hdelta]
    simp only [Vec3.smul_y, Vec3.mk_y]
    rw [abs_mul, abs_neg]
    have hc1 : |cfgC9.h_step / norm3 (⟨n.y, -n.x, 0⟩ : Vec3)| =
        cfgC9.h_step / norm3 (⟨n.y, -n.x, 0⟩ : Vec3) := abs_of_pos hcpos
    rw [hc1, show cfgC9.h_step = 1 from rfl]
    calc 1 / norm3 (⟨n.y, -n.x, 0⟩ : Vec3) * |n.x|
        ≤ 1 / norm3 (⟨n.y, -n.x, 0⟩ : Vec3) * norm3 (⟨n.y, -n.x, 0⟩ : Vec3) :=
          mul_le_mul_of_nonneg_left hnxo (by positivity)
      _ = 1 := by field_simp
  · rw [hdelta]
    simp
  · have hone : norm3 (get_next_surface_coord_delta cfgC9 n true) = cfgC9.h_step :=
      delta_h_norm cfgC9 (by norm_num [show cfgC9.h_step = 1 from rfl])
        (fun hc => (ne_of_gt hnypos) hc.2)
    have := norm3_sq (get_next_surface_coord_delta cfgC9 n true)
    rw [hone] at this
    rw [← this]
    norm_num [show cfgC9.h_step = 1 from rfl]
  · exact (delta_h_orth cfgC9 n).1

/-- Quantitative facts about the vertical marching displacement at an
in-bounds scenario point with positive `y`: it moves up by at least 1/4 mm,
moves at most 1 mm in `y`, does not move in `x`, has unit squared length, and
is orthogonal to the local normal. -/
theorem C9_delta_v_facts {p : Vec3} (hin : is_within_bounds cfgC9 p) (hy : 0 < p.y) :
    1 / 4 ≤ (get_next_surface_coord_delta cfgC9 (get_surface_normal cfgC9 p) false).z ∧
      |(get_next_surface_coord_delta cfgC9 (get_surface_normal cfgC9 p) false).y| ≤ 1 ∧
      (get_next_surface_coord_delta cfgC9 (get_surface_normal cfgC9 p) false).x = 0 ∧
      dot (get_next_surface_coord_delta cfgC9 (get_surface_normal cfgC9 p) false)
        (get_next_surface_coord_delta cfgC9 (get_surface_normal cfgC9 p) false) = 1 ∧
      dot (get_next_surface_coord_delta cfgC9 (get_surface_normal cfgC9 p) false)
        (get_surface_normal cfgC9 p) = 0 := by
  obtain ⟨ha, hb, hnypos, hnysq, hnxabs, hnyabs, hnzabs⟩ := C9_normal_facts hin hy
  set n := get_surface_normal cfgC9 p with hndef
  have hoo : dot (⟨0, n.z, -n.y⟩ : Vec3) (⟨0, n.z, -n.y⟩ : Vec3) = n.z ^ 2 + n.y ^ 2 := by
    unfold dot
    simp
    ring
  have hoo_pos : 0 < dot (⟨0, n.z, -n.y⟩ : Vec3) (⟨0, n.z, -n.y⟩ : Vec3) := by
    rw [hoo]
    nlinarith
  have hoo_le : dot (⟨0, n.z, -n.y⟩ : Vec3) (⟨0, n.z, -n.y⟩ : Vec3) ≤ 8 := by
    rw [hoo]
    nlinarith [sq_abs n.z, sq_abs n.y, abs_nonneg n.z, abs_nonneg n.y,
      mul_nonneg (by linarith : (0:ℝ) ≤ 2 - |n.z|) (abs_nonneg n.z),
      mul_nonneg (by linarith : (0:ℝ) ≤ 2 - |n.y|) (abs_nonneg n.y)]
  have ho_pos : 0 < norm3 (⟨0, n.z, -n.y⟩ : Vec3) := norm3_pos hoo_pos
  have ho_le : norm3 (⟨0, n.z, -n.y⟩ : Vec3) ≤ 4 * n.y := by
    have h1 : norm3 (⟨0, n.z, -n.y⟩ : Vec3) ≤ Real.sqrt (16 * n.y ^ 2) := by
      apply Real.sqrt_le_sqrt
      nlinarith
    rwa [show (16 : ℝ) * n.y ^ 2 = (4 * n.y) ^ 2 by ring,
      Real.sqrt_sq (by linarith)] at h1
  have hnzo : |n.z| ≤ norm3 (⟨0, n.z, -n.y⟩ : Vec3) := by
    have h1 := abs_y_le_norm3 (⟨0, n.z, -n.y⟩ : Vec3)
    simpa using h1
  have hcpos : 0 < cfgC9.v_step / norm3 (⟨0, n.z, -n.y⟩ : Vec3) :=
    div_pos (by norm_num [show cfgC9.v_step = 1 from rfl]) ho_pos
  have hcond : dot ((cfgC9.v_step / norm3 (⟨0, n.z, -n.y⟩ : Vec3)) •
      (⟨0, n.z, -n.y⟩ : Vec3)) zU < 0 := by
    simp only [dot_zU, Vec3.smul_z, Vec3.mk_z]
    have := mul_pos hcpos hnypos
    nlinarith
  have hdelta : get_next_surface_coord_delta cfgC9 n false =
      (-1 : ℝ) • ((cfgC9.v_step / norm3 (⟨0, n.z, -n.y⟩ : Vec3)) •
        (⟨0, n.z, -n.y⟩ : Vec3)) := by
    rw [delta_v_def, if_pos hcond]
  refine ⟨?_, ?_, ?_, ?_, ?_⟩
  · rw [hdelta]
    simp only [Vec3.smul_z, Vec3.mk_z]
    rw [show cfgC9.v_step = 1 from rfl]
    have hgoal : (-1 : ℝ) * (1 / norm3 (⟨0, n.z, -n.y⟩ : Vec3) * -n.y) =
        n.y / norm3 (⟨0, n.z, -n.y⟩ : Vec3) := by
      field_simp
    rw [hgoal, le_div_iff ho_pos]
    linarith
  · rw [hdelta]
    simp only [Vec3.smul_y, Vec3.mk_y]
    rw [abs_mul, abs_mul, abs_neg, abs_one, one_mul]
    have hc1 : |cfgC9.v_step / norm3 (⟨0, n.z, -n.y⟩ : Vec3)| =
        cfgC9.v_step / norm3 (⟨0, n.z, -n.y⟩ : Vec3) := abs_of_pos hcpos
    rw [hc1, show cfgC9.v_step = 1 from rfl]
    calc 1 / norm3 (⟨0, n.z, -n.y⟩ : Vec3) * |n.z|
        ≤ 1 / norm3 (⟨0, n.z, -n.y⟩ : Vec3) * norm3 (⟨0, n.z, -n.y⟩ : Vec3) :=
          mul_le_mul_of_nonneg_left hnzo (by positivity)
      _ = 1 := by field_simp
  · rw [hdelta]
    simp
  · have hone : norm3 (get_next_surface_coord_delta cfgC9 n false) = cfgC9.v_step :=
      delta_v_norm cfgC9 (by norm_num [show cfgC9.v_step = 1 from rfl])
        (fun hc => (ne_of_gt hnypos) hc.1)
    have := norm3_sq (get_next_surface_coord_delta cfgC9 n false)
    rw [hone] at this
    rw [← this]
    norm_num [show cfgC9.v_step = 1 from rfl]
  · exact (delta_v_orth cfgC9 n).1

theorem Vec3.sub_add_swap (a b c : Vec3) : (a + b) - c = (a - c) + b := by
  ext <;> simp <;> ring

/-- One horizontal marching step from an in-bounds scenario point with
`y >= 2`: the signed `x` coordinate advances by at least 1/4, `y` drops by at
most 1, `z` is unchanged, and the ellipse potential `FC9` grows by at most the
second-order drift `1/(2|p|) + 1/24`. -/
theorem C9_step_h {p : Vec3} {dir : ℝ} (hdir : dir = 1 ∨ dir = -1)
    (hin : is_within_bounds cfgC9 p) (hy2 : 2 ≤ p.y) :
    dir * p.x + 1 / 4 ≤ dir * (stepPt cfgC9 true dir p).x ∧
      p.y - 1 ≤ (stepPt cfgC9 true dir p).y ∧
      (stepPt cfgC9 true dir p).z = p.z ∧
      FC9 (stepPt cfgC9 true dir p) ≤ FC9 p + 1 / (2 * norm3 p) + 1 / 24 := by
  have hy : 0 < p.y := by linarith
  obtain ⟨hdx, hdy, hdz, hdd, hdn⟩ := C9_delta_h_facts hin hy
  set dl := get_next_surface_coord_delta cfgC9 (get_surface_normal cfgC9 p) true
    with hdl
  have hdir2 : dir * dir = 1 := by rcases hdir with rfl | rfl <;> norm_num
  have habsdir : |dir| = 1 := by rcases hdir with rfl | rfl <;> norm_num
  have hstep_x : (stepPt cfgC9 true dir p).x = p.x + dir * dl.x := rfl
  have hstep_y : (stepPt cfgC9 true dir p).y = p.y + dir * dl.y := rfl
  have hstep_z : (stepPt cfgC9 true dir p).z = p.z + dir * dl.z := rfl
  refine ⟨?_, ?_, ?_, ?_⟩
  · rw [hstep_x]
    have hexp : dir * (p.x + dir * dl.x) = dir * p.x + (dir * dir) * dl.x := by ring
    rw [hexp, hdir2, one_mul]
    linarith
  · rw [hstep_y]
    have h1 : |dir * dl.y| ≤ 1 := by
      rw [abs_mul, habsdir, one_mul]
      exact hdy
    have h2 : -(1 : ℝ) ≤ dir * dl.y := by
      have := neg_abs_le (dir * dl.y)
      linarith
    linarith
  · rw [hstep_z, hdz, mul_zero, add_zero]
  · -- the potential drift
    have ha : 0 < norm3 p := norm3_pos (by unfold dot; nlinarith)
    have hb : 0 < norm3 (p - ⟨50, -10, 0⟩) := by
      apply norm3_pos
      unfold dot
      simp
      nlinarith [mul_self_nonneg (p.x - 50), mul_self_nonneg p.z]
    have ha2 : 2 ≤ norm3 p := by
      have := abs_y_le_norm3 p
      have := le_abs_self p.y
      linarith
    have hb12 : 12 ≤ norm3 (p - ⟨50, -10, 0⟩) := by
      have h1 := abs_y_le_norm3 (p - ⟨50, -10, 0⟩)
      simp only [Vec3.sub_y, Vec3.mk_y] at h1
      have h2 : p.y - -10 ≤ |p.y - -10| := le_abs_self _
      linarith
    set d := dir • dl with hd
    have hddval : dot d d = 1 := by
      rw [hd, dot_smul_self, hdd]
      have : dir ^ 2 = 1 := by rw [pow_two]; exact hdir2
      rw [this, one_mul]
    have hnd : norm3 d = 1 := by
      rw [norm3, hddval, Real.sqrt_one]
    -- orthogonality to the normal splits into the two radial projections
    have hdn2 : (norm3 p)⁻¹ * dot dl p +
        (norm3 (p - ⟨50, -10, 0⟩))⁻¹ * dot dl (p - ⟨50, -10, 0⟩) = 0 := by
      have h0 := hdn
      unfold get_surface_normal at h0
      rw [show cfgC9.src_coord = (⟨50, -10, 0⟩ : Vec3) from rfl] at h0
      rw [dot_add_right, dot_smul_right, dot_smul_right] at h0
      linarith
    have hzero : dot p d / norm3 p +
        dot (p - ⟨50, -10, 0⟩) d / norm3 (p - ⟨50, -10, 0⟩) = 0 := by
      rw [hd, dot_smul_right, dot_smul_right, dot_comm3 p dl,
        dot_comm3 (p - ⟨50, -10, 0⟩) dl]
      have hexp : dir * dot dl p / norm3 p +
          dir * dot dl (p - ⟨50, -10, 0⟩) / norm3 (p - ⟨50, -10, 0⟩) =
          dir * ((norm3 p)⁻¹ * dot dl p +
            (norm3 (p - ⟨50, -10, 0⟩))⁻¹ * dot dl (p - ⟨50, -10, 0⟩)) := by
        field_simp
        ring
      rw [hexp, hdn2, mul_zero]
    have hbound1 : norm3 (p + d) ≤ norm3 p + dot p d / norm3 p + 1 / (2 * norm3 p) := by
      have h := norm3_add_le ha (by rw [hnd]; linarith)
      rw [hddval] at h
      exact h
    have hbound2 : norm3 ((p - ⟨50, -10, 0⟩) + d) ≤
        norm3 (p - ⟨50, -10, 0⟩) + dot (p - ⟨50, -10, 0⟩) d / norm3 (p - ⟨50, -10, 0⟩)
          + 1 / (2 * norm3 (p - ⟨50, -10, 0⟩)) := by
      have h := norm3_add_le hb (by rw [hnd]; linarith)
      rw [hddval] at h
      exact h
    have hdrift2 : 1 / (2 * norm3 (p - ⟨50, -10, 0⟩)) ≤ 1 / 24 :=
      one_div_le_one_div_of_le (by norm_num) (by linarith)
    have hstep_eq : stepPt cfgC9 true dir p = p + d := rfl
    have hsub_eq : stepPt cfgC9 true dir p - (⟨50, -10, 0⟩ : Vec3) =
        (p - ⟨50, -10, 0⟩) + d := by
      rw [hstep_eq, Vec3.sub_add_swap]
    calc FC9 (stepPt cfgC9 true dir p)
        = norm3 (p + d) + norm3 ((p - ⟨50, -10, 0⟩) + d) := by
          unfold FC9
          rw [hsub_eq, hstep_eq]
      _ ≤ FC9 p + 1 / (2 * norm3 p) + 1 / 24 := by
          unfold FC9
          linarith

/-- One vertical marching step from an in-bounds scenario point with `y >= 2`:
the signed `z` coordinate advances by at least 1/4, `y` drops by at most 1,
`x` is unchanged, and the ellipse potential grows by at most the second-order
drift. -/
theorem C9_step_v {p : Vec3} {dir : ℝ} (hdir : dir = 1 ∨ dir = -1)
    (hin : is_within_bounds cfgC9 p) (hy2 : 2 ≤ p.y) :
    dir * p.z + 1 / 4 ≤ dir * (stepPt cfgC9 false dir p).z ∧
      p.y - 1 ≤ (stepPt cfgC9 false dir p).y ∧
      (stepPt cfgC9 false dir p).x = p.x ∧
      FC9 (stepPt cfgC9 false dir p) ≤ FC9 p + 1 / (2 * norm3 p) + 1 / 24 := by
  have hy : 0 < p.y := by linarith
  obtain ⟨hdz14, hdy, hdx0, hdd, hdn⟩ := C9_delta_v_facts hin hy
  set dl := get_next_surface_coord_delta cfgC9 (get_surface_normal cfgC9 p) false
    with hdl
  have hdir2 : dir * dir = 1 := by rcases hdir with rfl | rfl <;> norm_num
  have habsdir : |dir| = 1 := by rcases hdir with rfl | rfl <;> norm_num
  have hstep_x : (stepPt cfgC9 false dir p).x = p.x + dir * dl.x := rfl
  have hstep_y : (stepPt cfgC9 false dir p).y = p.y + dir * dl.y := rfl
  have hstep_z : (stepPt cfgC9 false dir p).z = p.z + dir * dl.z := rfl
  refine ⟨?_, ?_, ?_, ?_⟩
  · rw [hstep_z]
    have hexp : dir * (p.z + dir * dl.z) = dir * p.z + (dir * dir) * dl.z := by ring
    rw [hexp, hdir2, one_mul]
    linarith
  · rw [hstep_y]
    have h1 : |dir * dl.y| ≤ 1 := by
      rw [abs_mul, habsdir, one_mul]
      exact hdy
    have h2 : -(1 : ℝ) ≤ dir * dl.y := by
      have := neg_abs_le (dir * dl.y)
      linarith
    linarith
  · rw [hstep_x, hdx0, mul_zero, add_zero]
  · have ha : 0 < norm3 p := norm3_pos (by unfold dot; nlinarith)
    have hb : 0 < norm3 (p - ⟨50, -10, 0⟩) := by
      apply norm3_pos
      unfold dot
      simp
      nlinarith [mul_self_nonneg (p.x - 50), mul_self_nonneg p.z]
    have ha2 : 2 ≤ norm3 p := by
      have := abs_y_le_norm3 p
      have := le_abs_self p.y
      linarith
    have hb12 : 12 ≤ norm3 (p - ⟨50, -10, 0⟩) := by
      have h1 := abs_y_le_norm3 (p - ⟨50, -10, 0⟩)
      simp only [Vec3.sub_y, Vec3.mk_y] at h1
      have h2 : p.y - -10 ≤ |p.y - -10| := le_abs_self _
      linarith
    set d := dir • dl with hd
    have hddval : dot d d = 1 := by
      rw [hd, dot_smul_self, hdd]
      have : dir ^ 2 = 1 := by rw [pow_two]; exact hdir2
      rw [this, one_mul]
    have hnd : norm3 d = 1 := by
      rw [norm3, hddval, Real.sqrt_one]
    have hdn2 : (norm3 p)⁻¹ * dot dl p +
        (norm3 (p - ⟨50, -10, 0⟩))⁻¹ * dot dl (p - ⟨50, -10, 0⟩) = 0 := by
      have h0 := hdn
      unfold get_surface_normal at h0
      rw [show cfgC9.src_coord = (⟨50, -10, 0⟩ : Vec3) from rfl] at h0
      rw [dot_add_right, dot_smul_right, dot_smul_right] at h0
      linarith
    have hzero : dot p d / norm3 p +
        dot (p - ⟨50, -10, 0⟩) d / norm3 (p - ⟨50, -10, 0⟩) = 0 := by
      rw [hd, dot_smul_right, dot_smul_right, dot_comm3 p dl,
        dot_comm3 (p - ⟨50, -10, 0⟩) dl]
      have hexp : dir * dot dl p / norm3 p +
          dir * dot dl (p - ⟨50, -10, 0⟩) / norm3 (p - ⟨50, -10, 0⟩) =
          dir * ((norm3 p)⁻¹ * dot dl p +
            (norm3 (p - ⟨50, -10, 0⟩))⁻¹ * dot dl (p - ⟨50, -10, 0⟩)) := by
        field_simp
        ring
      rw [hexp, hdn2, mul_zero]
    have hbound1 : norm3 (p + d) ≤ norm3 p + dot p d / norm3 p + 1 / (2 * norm3 p) := by
      have h := norm3_add_le ha (by rw [hnd]; linarith)
      rw [hddval] at h
      exact h
    have hbound2 : norm3 ((p - ⟨50, -10, 0⟩) + d) ≤
        norm3 (p - ⟨50, -10, 0⟩) + dot (p - ⟨50, -10, 0⟩) d / norm3 (p - ⟨50, -10, 0⟩)
          + 1 / (2 * norm3 (p - ⟨50, -10, 0⟩)) := by
      have h := norm3_add_le hb (by rw [hnd]; linarith)
      rw [hddval] at h
      exact h
    have hdrift2 : 1 / (2 * norm3 (p - ⟨50, -10, 0⟩)) ≤ 1 / 24 :=
      one_div_le_one_div_of_le (by norm_num) (by linarith)
    have hstep_eq : stepPt cfgC9 false dir p = p + d := rfl
    have hsub_eq : stepPt cfgC9 false dir p - (⟨50, -10, 0⟩ : Vec3) =
        (p - ⟨50, -10, 0⟩) + d := by
      rw [hstep_eq, Vec3.sub_add_swap]
    calc FC9 (stepPt cfgC9 false dir p)
        = norm3 (p + d) + norm3 ((p - ⟨50, -10, 0⟩) + d) := by
          unfold FC9
          rw [hsub_eq, hstep_eq]
      _ ≤ FC9 p + 1 / (2 * norm3 p) + 1 / 24 := by
          unfold FC9
          linarith

set_option maxHeartbeats 1600000 in
/-- Invariant of the horizontal march under the scenario configuration,
starting from a slice seed on the `x = 0` plane with `y >= 10` and ellipse
potential at most 780: as long as every visited point passes the bounds check,
the signed `x` coordinate has advanced by at least `j/4` after `j` steps, `y`
stays at least 2, and the potential has drifted by at most `5j/24` plus a small
constant. -/
theorem C9_h_invariant {p0 : Vec3} {dir : ℝ} (hdir : dir = 1 ∨ dir = -1)
    (hx0 : p0.x = 0) (hy0 : 10 ≤ p0.y) (hF0 : FC9 p0 ≤ 780) :
    ∀ j : ℕ, (∀ i : ℕ, i ≤ j →
        is_within_bounds cfgC9 ((stepPt cfgC9 true dir)^[i] p0)) →
      (j : ℝ) / 4 ≤ dir * ((stepPt cfgC9 true dir)^[j] p0).x ∧
        2 ≤ ((stepPt cfgC9 true dir)^[j] p0).y ∧
        (j ≤ 8 → 10 - (j : ℝ) ≤ ((stepPt cfgC9 true dir)^[j] p0).y) ∧
        FC9 ((stepPt cfgC9 true dir)^[j] p0) ≤
          780 + 5 * (j : ℝ) / 24 + (if j ≤ 8 then 0 else 1 / 24) := by
  have hdir2 : dir * dir = 1 := by rcases hdir with rfl | rfl <;> norm_num
  intro j
  induction j with
  | zero =>
    intro _
    simp only [Function.iterate_zero, id_eq, Nat.cast_zero]
    refine ⟨by rw [hx0]; norm_num, by linarith, by intro _; linarith, ?_⟩
    rw [if_pos (by omega : 0 ≤ 8)]
    linarith
  | succ j ih =>
    intro hall
    have hallj : ∀ i : ℕ, i ≤ j →
        is_within_bounds cfgC9 ((stepPt cfgC9 true dir)^[i] p0) :=
      fun i hi => hall i (Nat.le_succ_of_le hi)
    obtain ⟨ihx, ihy, ihth, ihF⟩ := ih hallj
    have hinP : is_within_bounds cfgC9 ((stepPt cfgC9 true dir)^[j] p0) :=
      hallj j le_rfl
    have hinQ : is_within_bounds cfgC9 ((stepPt cfgC9 true dir)^[j + 1] p0) :=
      hall (j + 1) le_rfl
    have hiter : (stepPt cfgC9 true dir)^[j + 1] p0 =
        stepPt cfgC9 true dir ((stepPt cfgC9 true dir)^[j] p0) :=
      Function.iterate_succ_apply' _ _ _
    rw [hiter] at hinQ
    obtain ⟨hsx, hsy, hsz, hsF⟩ := C9_step_h hdir hinP ihy
    have hxQ : ((j : ℝ) + 1) / 4 ≤
        dir * (stepPt cfgC9 true dir ((stepPt cfgC9 true dir)^[j] p0)).x := by
      linarith
    refine ⟨?_, ?_, ?_, ?_⟩
    · rw [hiter]
      push_cast
      linarith
    · rw [hiter]
      by_cases h8 : j + 1 ≤ 8
      · have h1 := ihth (by omega)
        have hj7 : (j : ℝ) ≤ 7 := by exact_mod_cast Nat.le_of_succ_le_succ h8
        linarith
      · have hQypos : 0 < (stepPt cfgC9 true dir ((stepPt cfgC9 true dir)^[j] p0)).y := by
          linarith
        have h9 : (9 : ℝ) ≤ (j : ℝ) + 1 := by
          exact_mod_cast (by omega : 9 ≤ j + 1)
        have hxQ94 : (9 : ℝ) / 4 ≤
            dir * (stepPt cfgC9 true dir ((stepPt cfgC9 true dir)^[j] p0)).x := by
          linarith
        have hchar := inb_C9_sq (ne_of_gt hQypos) hinQ
        have hsq_eq : (dir * (stepPt cfgC9 true dir ((stepPt cfgC9 true dir)^[j] p0)).x) ^ 2 =
            (stepPt cfgC9 true dir ((stepPt cfgC9 true dir)^[j] p0)).x ^ 2 := by
          rw [mul_pow, pow_two, hdir2, one_mul]
        have h4 : (dir * (stepPt cfgC9 true dir ((stepPt cfgC9 true dir)^[j] p0)).x) ^ 2 ≤
            (stepPt cfgC9 true dir ((stepPt cfgC9 true dir)^[j] p0)).y ^ 2 := by
          rw [hsq_eq]
          nlinarith [hchar, sq_nonneg (stepPt cfgC9 true dir
            ((stepPt cfgC9 true dir)^[j] p0)).z]
        have h5 : dir * (stepPt cfgC9 true dir ((stepPt cfgC9 true dir)^[j] p0)).x ≤
            (stepPt cfgC9 true dir ((stepPt cfgC9 true dir)^[j] p0)).y := by
          nlinarith [hxQ94, h4, hQypos]
        linarith
    · intro h8
      rw [hiter]
      have h1 := ihth (by omega)
      push_cast
      linarith
    · rw [hiter]
      have habsP : dir * ((stepPt cfgC9 true dir)^[j] p0).x ≤
          norm3 ((stepPt cfgC9 true dir)^[j] p0) := by
        have h1 := abs_x_le_norm3 ((stepPt cfgC9 true dir)^[j] p0)
        have h2 : dir * ((stepPt cfgC9 true dir)^[j] p0).x ≤
            |((stepPt cfgC9 true dir)^[j] p0).x| := by
          rcases hdir with rfl | rfl
          · rw [one_mul]; exact le_abs_self _
          · rw [neg_one_mul]; exact neg_le_abs _
        linarith
      by_cases h7 : j ≤ 7
      · rw [if_pos (by omega : j + 1 ≤ 8)]
        rw [if_pos (by omega : j ≤ 8)] at ihF
        have hth := ihth (by omega)
        have hj7 : (j : ℝ) ≤ 7 := by exact_mod_cast h7
        have haP : 3 ≤ norm3 ((stepPt cfgC9 true dir)^[j] p0) := by
          have h1 := abs_y_le_norm3 ((stepPt cfgC9 true dir)^[j] p0)
          have h2 := le_abs_self ((stepPt cfgC9 true dir)^[j] p0).y
          linarith
        have hdrift : 1 / (2 * norm3 ((stepPt cfgC9 true dir)^[j] p0)) ≤ 1 / 6 :=
          one_div_le_one_div_of_le (by norm_num) (by linarith)
        push_cast
        linarith
      · by_cases h8 : j = 8
        · subst h8
          rw [if_neg (by omega : ¬ (8 + 1 ≤ 8))]
          rw [if_pos (by omega : 8 ≤ 8)] at ihF
          have hx2 : (2 : ℝ) ≤ dir * ((stepPt cfgC9 true dir)^[8] p0).x := by
            have : ((8 : ℕ) : ℝ) / 4 = 2 := by norm_num
            linarith [ihx]
          have hxsq : (4 : ℝ) ≤ ((stepPt cfgC9 true dir)^[8] p0).x ^ 2 := by
            have h1 : (2 : ℝ) ^ 2 ≤ (dir * ((stepPt cfgC9 true dir)^[8] p0).x) ^ 2 :=
              pow_le_pow_left (by norm_num) hx2 2
            have h2 : (dir * ((stepPt cfgC9 true dir)^[8] p0).x) ^ 2 =
                ((stepPt cfgC9 true dir)^[8] p0).x ^ 2 := by
              have h3 : (dir * ((stepPt cfgC9 true dir)^[8] p0).x) ^ 2 =
                  dir * dir * ((stepPt cfgC9 true dir)^[8] p0).x ^ 2 := by ring
              rw [h3, hdir2, one_mul]
            rw [h2] at h1
            linarith
          have hdotP : (7.84 : ℝ) ≤ dot ((stepPt cfgC9 true dir)^[8] p0)
              ((stepPt cfgC9 true dir)^[8] p0) := by
            unfold dot
            nlinarith [hxsq, ihy, mul_self_nonneg (((stepPt cfgC9 true dir)^[8] p0)).z]
          have haP : (2.8 : ℝ) ≤ norm3 ((stepPt cfgC9 true dir)^[8] p0) := by
            unfold norm3
            apply Real.le_sqrt_of_sq_le
            nlinarith [hdotP]
          have hdrift : 1 / (2 * norm3 ((stepPt cfgC9 true dir)^[8] p0)) ≤ 5 / 28 := by
            rw [show (5 : ℝ) / 28 = 1 / (28 / 5) by norm_num]
            exact one_div_le_one_div_of_le (by norm_num) (by linarith)
          push_cast
          linarith
        · have h9 : 9 ≤ j := by omega
          rw [if_neg (by omega : ¬ (j + 1 ≤ 8))]
          rw [if_neg (by omega : ¬ (j ≤ 8))] at ihF
          have h9R : (9 : ℝ) ≤ (j : ℝ) := by exact_mod_cast h9
          have hx94 : (9 : ℝ) / 4 ≤ dir * ((stepPt cfgC9 true dir)^[j] p0).x := by
            linarith
          have hxsq : (81 / 16 : ℝ) ≤ ((stepPt cfgC9 true dir)^[j] p0).x ^ 2 := by
            have h1 : ((9 : ℝ) / 4) ^ 2 ≤ (dir * ((stepPt cfgC9 true dir)^[j] p0).x) ^ 2 :=
              pow_le_pow_left (by norm_num) hx94 2
            have h2 : (dir * ((stepPt cfgC9 true dir)^[j] p0).x) ^ 2 =
                ((stepPt cfgC9 true dir)^[j] p0).x ^ 2 := by
              have h3 : (dir * ((stepPt cfgC9 true dir)^[j] p0).x) ^ 2 =
                  dir * dir * ((stepPt cfgC9 true dir)^[j] p0).x ^ 2 := by ring
              rw [h3, hdir2, one_mul]
            rw [h2] at h1
            have h4 : ((9 : ℝ) / 4) ^ 2 = 81 / 16 := by norm_num
            linarith
          have hdotP : (9 : ℝ) ≤ dot ((stepPt cfgC9 true dir)^[j] p0)
              ((stepPt cfgC9 true dir)^[j] p0) := by
            unfold dot
            nlinarith [hxsq, ihy,
              mul_self_nonneg (((stepPt cfgC9 true dir)^[j] p0)).z]
          have haP : (3 : ℝ) ≤ norm3 ((stepPt cfgC9 true dir)^[j] p0) := by
            unfold norm3
            apply Real.le_sqrt_of_sq_le
            nlinarith [hdotP]
          have hdrift : 1 / (2 * norm3 ((stepPt cfgC9 true dir)^[j] p0)) ≤ 1 / 6 :=
            one_div_le_one_div_of_le (by norm_num) (by linarith)
          push_cast
          linarith

/-- The ellipse potential of the scenario seed: `50 + sqrt 6100 <= 129`. -/
theorem FC9_seed : FC9 seedSource ≤ 129 := by
  unfold FC9
  have h1 : norm3 seedSource = 50 :=
    norm3_eval (by norm_num) (by unfold dot; norm_num [seedSource])
  have h2 : norm3 (seedSource - ⟨50, -10, 0⟩) ≤ 79 := by
    have hdot : dot (seedSource - ⟨50, -10, 0⟩) (seedSource - ⟨50, -10, 0⟩) = 6100 := by
      unfold dot
      norm_num [seedSource]
    have h3 : norm3 (seedSource - ⟨50, -10, 0⟩) ≤ Real.sqrt 6241 := by
      unfold norm3
      rw [hdot]
      exact Real.sqrt_le_sqrt (by norm_num)
    rwa [show (6241 : ℝ) = 79 ^ 2 by norm_num, Real.sqrt_sq (by norm_num)] at h3
  linarith

set_option maxHeartbeats 1600000 in
/-- Invariant of the vertical march under the scenario configuration from the
seed `(0, 50, 0)`: as long as every visited point passes the bounds check, the
point stays on the `x = 0` plane, the signed `z` coordinate advances by at
least `j/4`, `y` stays at least 2, and the potential drifts by at most
`5j/24`. -/
theorem C9_v_invariant {dir : ℝ} (hdir : dir = 1 ∨ dir = -1) :
    ∀ j : ℕ, (∀ i : ℕ, i ≤ j →
        is_within_bounds cfgC9 ((stepPt cfgC9 false dir)^[i] seedSource)) →
      ((stepPt cfgC9 false dir)^[j] seedSource).x = 0 ∧
        (j : ℝ) / 4 ≤ dir * ((stepPt cfgC9 false dir)^[j] seedSource).z ∧
        2 ≤ ((stepPt cfgC9 false dir)^[j] seedSource).y ∧
        (j ≤ 48 → 50 - (j : ℝ) ≤ ((stepPt cfgC9 false dir)^[j] seedSource).y) ∧
        FC9 ((stepPt cfgC9 false dir)^[j] seedSource) ≤ 129 + 5 * (j : ℝ) / 24 := by
  have hdir2 : dir * dir = 1 := by rcases hdir with rfl | rfl <;> norm_num
  intro j
  induction j with
  | zero =>
    intro _
    simp only [Function.iterate_zero, id_eq, Nat.cast_zero]
    refine ⟨rfl, ?_, ?_, ?_, ?_⟩
    · show (0 : ℝ) / 4 ≤ dir * (0 : ℝ)
      norm_num
    · show (2 : ℝ) ≤ 50
      norm_num
    · intro _
      show 50 - (0 : ℝ) ≤ 50
      norm_num
    · have := FC9_seed
      linarith
  | succ j ih =>
    intro hall
    have hallj : ∀ i : ℕ, i ≤ j →
        is_within_bounds cfgC9 ((stepPt cfgC9 false dir)^[i] seedSource) :=
      fun i hi => hall i (Nat.le_succ_of_le hi)
    obtain ⟨ihx, ihz, ihy, ihth, ihF⟩ := ih hallj
    have hinP : is_within_bounds cfgC9 ((stepPt cfgC9 false dir)^[j] seedSource) :=
      hallj j le_rfl
    have hinQ : is_within_bounds cfgC9 ((stepPt cfgC9 false dir)^[j + 1] seedSource) :=
      hall (j + 1) le_rfl
    have hiter : (stepPt cfgC9 false dir)^[j + 1] seedSource =
        stepPt cfgC9 false dir ((stepPt cfgC9 false dir)^[j] seedSource) :=
      Function.iterate_succ_apply' _ _ _
    rw [hiter] at hinQ
    obtain ⟨hsz, hsy, hsx, hsF⟩ := C9_step_v hdir hinP ihy
    have hzQ : ((j : ℝ) + 1) / 4 ≤
        dir * (stepPt cfgC9 false dir ((stepPt cfgC9 false dir)^[j] seedSource)).z := by
      linarith
    refine ⟨?_, ?_, ?_, ?_, ?_⟩
    · rw [hiter, hsx, ihx]
    · rw [hiter]
      push_cast
      linarith
    · rw [hiter]
      by_cases h48 : j + 1 ≤ 48
      · have h1 := ihth (by omega)
        have hj47 : (j : ℝ) ≤ 47 := by exact_mod_cast Nat.le_of_succ_le_succ h48
        linarith
      · have hQypos : 0 <
            (stepPt cfgC9 false dir ((stepPt cfgC9 false dir)^[j] seedSource)).y := by
          linarith
        have h49 : (49 : ℝ) ≤ (j : ℝ) + 1 := by
          exact_mod_cast (by omega : 49 ≤ j + 1)
        have hzQ2 : (49 : ℝ) / 4 ≤
            dir * (stepPt cfgC9 false dir ((stepPt cfgC9 false dir)^[j] seedSource)).z := by
          linarith
        have hchar := inb_C9_sq (ne_of_gt hQypos) hinQ
        have hsq_eq :
            (dir * (stepPt cfgC9 false dir ((stepPt cfgC9 false dir)^[j] seedSource)).z) ^ 2 =
            (stepPt cfgC9 false dir ((stepPt cfgC9 false dir)^[j] seedSource)).z ^ 2 := by
          rw [mul_pow, pow_two, hdir2, one_mul]
        have h4 :
            (dir * (stepPt cfgC9 false dir ((stepPt cfgC9 false dir)^[j] seedSource)).z) ^ 2 ≤
            (stepPt cfgC9 false dir ((stepPt cfgC9 false dir)^[j] seedSource)).y ^ 2 := by
          rw [hsq_eq]
          nlinarith [hchar, sq_nonneg (stepPt cfgC9 false dir
            ((stepPt cfgC9 false dir)^[j] seedSource)).x]
        have h5 : dir * (stepPt cfgC9 false dir ((stepPt cfgC9 false dir)^[j] seedSource)).z ≤
            (stepPt cfgC9 false dir ((stepPt cfgC9 false dir)^[j] seedSource)).y := by
          nlinarith [hzQ2, h4, hQypos]
        linarith
    · intro h48
      rw [hiter]
      have h1 := ihth (by omega)
      push_cast
      linarith
    · rw [hiter]
      have haP : 3 ≤ norm3 ((stepPt cfgC9 false dir)^[j] seedSource) := by
        by_cases h47 : j ≤ 47
        · have hth := ihth (by omega)
          have hj47 : (j : ℝ) ≤ 47 := by exact_mod_cast h47
          have h1 := abs_y_le_norm3 ((stepPt cfgC9 false dir)^[j] seedSource)
          have h2 := le_abs_self ((stepPt cfgC9 false dir)^[j] seedSource).y
          linarith
        · have h48 : 48 ≤ j := by omega
          have h48R : (48 : ℝ) ≤ (j : ℝ) := by exact_mod_cast h48
          have h1 := abs_z_le_norm3 ((stepPt cfgC9 false dir)^[j] seedSource)
          have h2 : dir * ((stepPt cfgC9 false dir)^[j] seedSource).z ≤
              |((stepPt cfgC9 false dir)^[j] seedSource).z| := by
            rcases hdir with rfl | rfl
            · rw [one_mul]; exact le_abs_self _
            · rw [neg_one_mul]; exact neg_le_abs _
          linarith
      have hdrift : 1 / (2 * norm3 ((stepPt cfgC9 false dir)^[j] seedSource)) ≤ 1 / 6 :=
        one_div_le_one_div_of_le (by norm_num) (by linarith)
      push_cast
      linarith

theorem norm3_le_FC9 (p : Vec3) : norm3 p ≤ FC9 p := by
  unfold FC9
  have h := norm3_nonneg (p - ⟨50, -10, 0⟩)
  linarith

/-- Along the horizontal march the `x` advance outruns the potential drift, so
an all-in-bounds chain cannot reach length 18722: some iterate within the
first 18722 steps fails the bounds check. -/
theorem C9_h_oob_exists {p0 : Vec3} {dir : ℝ} (hdir : dir = 1 ∨ dir = -1)
    (hx0 : p0.x = 0) (hy0 : 10 ≤ p0.y) (hF0 : FC9 p0 ≤ 780) :
    ∃ i : ℕ, i ≤ 18722 ∧ ¬ is_within_bounds cfgC9 ((stepPt cfgC9 true dir)^[i] p0) := by
  by_contra hcon
  push_neg at hcon
  obtain ⟨hx, _, _, hF⟩ := C9_h_invariant hdir hx0 hy0 hF0 18722 hcon
  rw [if_neg (by omega : ¬ (18722 ≤ 8))] at hF
  have h1 := norm3_le_FC9 ((stepPt cfgC9 true dir)^[18722] p0)
  have h2 := abs_x_le_norm3 ((stepPt cfgC9 true dir)^[18722] p0)
  have h3 : dir * ((stepPt cfgC9 true dir)^[18722] p0).x ≤
      |((stepPt cfgC9 true dir)^[18722] p0).x| := by
    rcases hdir with rfl | rfl
    · rw [one_mul]; exact le_abs_self _
    · rw [neg_one_mul]; exact neg_le_abs _
  push_cast at hx hF
  linarith

/-- Same argument vertically from the scenario seed: some iterate within the
first 3097 vertical steps fails the bounds check. -/
theorem C9_v_oob_exists {dir : ℝ} (hdir : dir = 1 ∨ dir = -1) :
    ∃ i : ℕ, i ≤ 3097 ∧
      ¬ is_within_bounds cfgC9 ((stepPt cfgC9 false dir)^[i] seedSource) := by
  by_contra hcon
  push_neg at hcon
  obtain ⟨_, hz, _, _, hF⟩ := C9_v_invariant hdir 3097 hcon
  have h1 := norm3_le_FC9 ((stepPt cfgC9 false dir)^[3097] seedSource)
  have h2 := abs_z_le_norm3 ((stepPt cfgC9 false dir)^[3097] seedSource)
  have h3 : dir * ((stepPt cfgC9 false dir)^[3097] seedSource).z ≤
      |((stepPt cfgC9 false dir)^[3097] seedSource).z| := by
    rcases hdir with rfl | rfl
    · rw [one_mul]; exact le_abs_self _
    · rw [neg_one_mul]; exact neg_le_abs _
  push_cast at hz hF
  linarith

/-- Every vertical iterate of an all-in-bounds chain keeps the properties the
horizontal termination argument needs: it stays on the `x = 0` plane, keeps
`y` at least 10, and keeps the potential at most 780. -/
theorem C9_v_chain {dir : ℝ} {j : ℕ} (hdir : dir = 1 ∨ dir = -1)
    (hall : ∀ i : ℕ, i ≤ j →
      is_within_bounds cfgC9 ((stepPt cfgC9 false dir)^[i] seedSource)) :
    ((stepPt cfgC9 false dir)^[j] seedSource).x = 0 ∧
      10 ≤ ((stepPt cfgC9 false dir)^[j] seedSource).y ∧
      FC9 ((stepPt cfgC9 false dir)^[j] seedSource) ≤ 780 := by
  have hdir2 : dir * dir = 1 := by rcases hdir with rfl | rfl <;> norm_num
  obtain ⟨hx, hz, hy2, hth, hF⟩ := C9_v_invariant hdir j hall
  have h1 := norm3_le_FC9 ((stepPt cfgC9 false dir)^[j] seedSource)
  have h2 := abs_z_le_norm3 ((stepPt cfgC9 false dir)^[j] seedSource)
  have h3 : dir * ((stepPt cfgC9 false dir)^[j] seedSource).z ≤
      |((stepPt cfgC9 false dir)^[j] seedSource).z| := by
    rcases hdir with rfl | rfl
    · rw [one_mul]; exact le_abs_self _
    · rw [neg_one_mul]; exact neg_le_abs _
  have hjle : (j : ℝ) ≤ 3096 := by linarith
  refine ⟨hx, ?_, by linarith⟩
  by_cases h40 : j ≤ 40
  · have hthj := hth (by omega)
    have hj40 : (j : ℝ) ≤ 40 := by exact_mod_cast h40
    linarith
  · have h41 : (41 : ℝ) ≤ (j : ℝ) := by exact_mod_cast (by omega : 41 ≤ j)
    have hin := hall j le_rfl
    have hypos : 0 < ((stepPt cfgC9 false dir)^[j] seedSource).y := by linarith
    have hchar := inb_C9_sq (ne_of_gt hypos) hin
    have hsq : (dir * ((stepPt cfgC9 false dir)^[j] seedSource).z) ^ 2 =
        ((stepPt cfgC9 false dir)^[j] seedSource).z ^ 2 := by
      rw [mul_pow, pow_two, hdir2, one_mul]
    have h4 : (dir * ((stepPt cfgC9 false dir)^[j] seedSource).z) ^ 2 ≤
        ((stepPt cfgC9 false dir)^[j] seedSource).y ^ 2 := by
      rw [hsq]
      nlinarith [hchar, sq_nonneg ((stepPt cfgC9 false dir)^[j] seedSource).x]
    have h5 : dir * ((stepPt cfgC9 false dir)^[j] seedSource).z ≤
        ((stepPt cfgC9 false dir)^[j] seedSource).y := by
      nlinarith [h4, hypos, hz, h41]
    linarith

/-- Once some iterate within the fuel budget is out of bounds, one more unit
of fuel changes nothing: the loop already stopped. -/
theorem march_eq_of_iterate_oob (cfg : Config) (h : Bool) (d : ℝ) :
    ∀ (j : ℕ) (p : Vec3) (n : ℕ), j ≤ n →
      ¬ is_within_bounds cfg ((stepPt cfg h d)^[j] p) →
      march cfg h d (n + 1) p = march cfg h d n p := by
  intro j
  induction j with
  | zero =>
    intro p n _ hoob
    simp only [Function.iterate_zero, id_eq] at hoob
    rw [march_nil_of_oob cfg h d hoob (n + 1), march_nil_of_oob cfg h d hoob n]
  | succ j ih =>
    intro p n hjn hoob
    obtain ⟨m, rfl⟩ : ∃ m, n = m + 1 := ⟨n - 1, by omega⟩
    by_cases hp : is_within_bounds cfg p
    · rw [march_succ_of_inb cfg h d (m + 1) p hp, march_succ_of_inb cfg h d m p hp]
      congr 1
      exact ih (stepPt cfg h d p) m (by omega)
        (by rwa [Function.iterate_succ_apply] at hoob)
    · rw [march_nil_of_oob cfg h d hp (m + 1 + 1), march_nil_of_oob cfg h d hp (m + 1)]

/-- Every collected march point is an iterate of the step map, with the loop
guard having held at every strictly earlier iterate. -/
theorem march_members_iterate (cfg : Config) (h : Bool) (d : ℝ) :
    ∀ (n : ℕ) (p q : Vec3), q ∈ march cfg h d n p →
      ∃ j : ℕ, 1 ≤ j ∧ j ≤ n ∧ q = (stepPt cfg h d)^[j] p ∧
        ∀ i : ℕ, i < j → is_within_bounds cfg ((stepPt cfg h d)^[i] p) := by
  intro n
  induction n with
  | zero => intro p q hq; simp [march_zero] at hq
  | succ n ih =>
    intro p q hq
    by_cases hp : is_within_bounds cfg p
    · rw [march_succ_of_inb cfg h d n p hp] at hq
      rcases List.mem_cons.mp hq with rfl | hq2
      · refine ⟨1, le_rfl, by omega, (Function.iterate_one _).symm ▸ rfl, ?_⟩
        intro i hi
        interval_cases i
        simpa using hp
      · obtain ⟨j, hj1, hjn, heq, hguard⟩ := ih (stepPt cfg h d p) q hq2
        refine ⟨j + 1, by omega, by omega, ?_, ?_⟩
        · rw [Function.iterate_succ_apply]
          exact heq
        · intro i hi
          cases i with
          | zero => simpa using hp
          | succ i =>
            rw [Function.iterate_succ_apply]
            exact hguard i (by omega)
    · rw [march_succ_of_oob cfg h d n p hp] at hq
      simp at hq

/-- A horizontal march from a point on the `x = 0` plane with `y` at least 10
and potential at most 780 is fuel-stable from 18722 onwards. -/
theorem C9_h_march_stable {p : Vec3} {dir : ℝ} (hdir : dir = 1 ∨ dir = -1)
    (hx0 : p.x = 0) (hy0 : 10 ≤ p.y) (hF0 : FC9 p ≤ 780) :
    ∀ m : ℕ, 18722 ≤ m →
      march cfgC9 true dir (m + 1) p = march cfgC9 true dir m p := by
  obtain ⟨i, hi, hoob⟩ := C9_h_oob_exists hdir hx0 hy0 hF0
  intro m hm
  exact march_eq_of_iterate_oob cfgC9 true dir i p m (by omega) hoob

/-- The vertical march from the scenario seed is fuel-stable from 3097
onwards. -/
theorem C9_v_march_stable {dir : ℝ} (hdir : dir = 1 ∨ dir = -1) :
    ∀ m : ℕ, 3097 ≤ m →
      march cfgC9 false dir (m + 1) seedSource = march cfgC9 false dir m seedSource := by
  obtain ⟨i, hi, hoob⟩ := C9_v_oob_exists hdir
  intro m hm
  exact march_eq_of_iterate_oob cfgC9 false dir i seedSource m (by omega) hoob

/-- Horizontal slices of suitable seeds no longer change once the fuel reaches
20000. -/
theorem C9_slice_stable_of_props {q : Vec3} (hx0 : q.x = 0) (hy0 : 10 ≤ q.y)
    (hF0 : FC9 q ≤ 780) :
    ∀ m : ℕ, 20000 ≤ m →
      get_horizontal_slice cfgC9 m q = get_horizontal_slice cfgC9 20000 q := by
  intro m hm
  have h1 := march_stable cfgC9 true 1 20000 q
    (C9_h_march_stable (Or.inl rfl) hx0 hy0 hF0 20000 (by norm_num)) m (by omega)
  have h2 := march_stable cfgC9 true (-1) 20000 q
    (C9_h_march_stable (Or.inr rfl) hx0 hy0 hF0 20000 (by norm_num)) m (by omega)
  unfold get_horizontal_slice
  rw [h1, h2]

/-- Every slice the builder emits contains at least its seed. -/
theorem slice_length_pos (cfg : Config) (fuel : Nat) (s : Vec3) :
    0 < (get_horizontal_slice cfg fuel s).length := by
  unfold get_horizontal_slice
  rw [List.length_append, List.length_cons]
  omega

/-- The scenario seed itself has the properties that make its horizontal march
terminate. -/
theorem seedSource_props : seedSource.x = 0 ∧ 10 ≤ seedSource.y ∧ FC9 seedSource ≤ 780 := by
  refine ⟨rfl, ?_, ?_⟩
  · show (10 : ℝ) ≤ 50
    norm_num
  · have h := FC9_seed
    linarith

/-- Any slice seeded at a point of a stabilised vertical march is itself stable
from fuel 20000 onwards. -/
theorem C9_slice_stable_of_mem {d : ℝ} (hd : d = 1 ∨ d = -1) {q : Vec3}
    (hq : q ∈ march cfgC9 false d 20000 seedSource) :
    ∀ m : ℕ, 20000 ≤ m →
      get_horizontal_slice cfgC9 m q = get_horizontal_slice cfgC9 20000 q := by
  intro m hm
  obtain ⟨j, hj1, hjn, rfl, hguard⟩ :=
    march_members_iterate cfgC9 false d 20000 seedSource q hq
  by_cases hinq : is_within_bounds cfgC9 ((stepPt cfgC9 false d)^[j] seedSource)
  · have hall : ∀ i : ℕ, i ≤ j →
        is_within_bounds cfgC9 ((stepPt cfgC9 false d)^[i] seedSource) := by
      intro i hi
      rcases Nat.lt_or_ge i j with hlt | hge
      · exact hguard i hlt
      · have : i = j := by omega
        rw [this]
        exact hinq
    obtain ⟨hx0, hy0, hF0⟩ := C9_v_chain hd hall
    exact C9_slice_stable_of_props hx0 hy0 hF0 m hm
  · rw [slice_of_oob_seed cfgC9 m hinq, slice_of_oob_seed cfgC9 20000 hinq]

set_option maxHeartbeats 800000 in
/-- C9: for the scenario configuration (both fields of view 90 degrees, both
steps 1mm, seed distance 50mm, source at (50,-10,0)) and the seed (0,50,0),
the surface construction terminates — in the fuel embedding, from fuel 20000
onwards every marching loop has already exited on its own (more fuel changes
nothing) — and the finished mesh has a positive slice count with every slice
holding a positive number of points. -/
theorem build_surface_C9_terminates :
    (∀ m : ℕ, 20000 ≤ m →
        build_surface cfgC9 m seedSource = build_surface cfgC9 20000 seedSource) ∧
      0 < (build_surface cfgC9 20000 seedSource).length ∧
      ∀ sl ∈ build_surface cfgC9 20000 seedSource, 0 < sl.length := by
  obtain ⟨hsx, hsy, hsF⟩ := seedSource_props
  refine ⟨?_, ?_, ?_⟩
  · intro m hm
    have hvpos := march_stable cfgC9 false 1 20000 seedSource
      (C9_v_march_stable (Or.inl rfl) 20000 (by norm_num)) m (by omega)
    have hvneg := march_stable cfgC9 false (-1) 20000 seedSource
      (C9_v_march_stable (Or.inr rfl) 20000 (by norm_num)) m (by omega)
    unfold build_surface
    rw [hvpos, hvneg]
    congr 1
    · congr 1
      exact List.map_congr_left
        (fun q hq => C9_slice_stable_of_mem (Or.inr rfl) hq m hm)
    · congr 1
      · exact C9_slice_stable_of_props hsx hsy hsF m hm
      · exact List.map_congr_left
          (fun q hq => C9_slice_stable_of_mem (Or.inl rfl) hq m hm)
  · unfold build_surface
    rw [List.length_append, List.length_cons]
    omega
  · intro sl hsl
    unfold build_surface at hsl
    rcases List.mem_append.mp hsl with h1 | h2
    · rw [List.mem_reverse] at h1
      obtain ⟨q, _, rfl⟩ := List.mem_map.mp h1
      exact slice_length_pos cfgC9 20000 q
    · rcases List.mem_cons.mp h2 with rfl | h3
      · exact slice_length_pos cfgC9 20000 seedSource
      · obtain ⟨q, _, rfl⟩ := List.mem_map.mp h3
        exact slice_length_pos cfgC9 20000 q

/-- Witness for C9: one concrete unit of extra fuel beyond 20000 leaves the
mesh unchanged. -/
theorem build_surface_C9_terminates_witness :
    20000 ≤ 20001 ∧
      build_surface cfgC9 20001 seedSource = build_surface cfgC9 20000 seedSource :=
  ⟨by norm_num, build_surface_C9_terminates.1 20001 (by norm_num)⟩

end Lensmaker
